import Mathlib

/-!
Verification development for the chroma-translator Translation Orchestration
Engine.  The definitions below are shallow embeddings of the TypeScript
sources:

* `src/shared/cache-manager.ts`       — `CacheManager` (result cache)
* `src/shared/debounce-manager.ts`    — `DebounceManager` queue/scheduler
* `src/background/batch-translation-manager.ts` — batch orchestration
* `src/background/translation-service.ts`       — `TranslationService.translate`
* `src/shared/error-handler.ts`       — validation / error classification
* `src/content/content.ts`            — mutation / restoration layer

JavaScript `Map` objects are modelled as association lists in insertion
order (`Map` iteration order), `Array.prototype.sort` (stable per the
ECMAScript spec) as `List.insertionSort` with the non-strict relation
induced by the comparator, machine numbers as `Nat`/`Int`/`ℚ`, and
`Date.now()` as an explicit clock parameter.
-/

set_option maxRecDepth 16000

namespace ChromaTranslator

/-! ## types/interfaces.ts and types/constants.ts -/

/-- Model of `TranslationStatus` enum from `types/interfaces.ts`. -/
inductive TranslationStatus where
  | pending
  | translating
  | completed
  | error
deriving DecidableEq, Repr

/-- Model of `TranslationResult` from `types/interfaces.ts` (`detectedLanguage` and
`confidence` are optional fields). -/
structure TranslationResult where
  translatedText : String
  detectedLanguage : Option String := none
  confidence : Option ℚ := none
  status : TranslationStatus
deriving DecidableEq, Repr

/-- Model of `TranslationErrorType` enum from `types/interfaces.ts`. -/
inductive TranslationErrorType where
  | api_unavailable
  | network_error
  | invalid_language
  | text_too_long
  | quota_exceeded
deriving DecidableEq, Repr

/-- Model of `TranslationError` from `types/interfaces.ts`. -/
structure TranslationError where
  type : TranslationErrorType
  message : String
  retryable : Bool
deriving DecidableEq, Repr

/-- Model of `CONFIG` from `types/constants.ts`. -/
def CONFIG_MAX_TEXT_LENGTH : Nat := 5000

def CONFIG_RETRY_ATTEMPTS : Nat := 3

def CONFIG_CACHE_EXPIRY : Nat := 3600000

/-- Model of `ERROR_MESSAGES` entries from `types/constants.ts` that the embedded
functions mention. -/
def ERROR_MESSAGES_API_UNAVAILABLE : String :=
  "Chrome Translation API is not available. Please check your Chrome version and network connection."

def ERROR_MESSAGES_NETWORK_ERROR : String :=
  "Network error occurred. Please check your internet connection and try again."

def ERROR_MESSAGES_INVALID_LANGUAGE : String :=
  "The selected language is not supported."

def ERROR_MESSAGES_TEXT_TOO_LONG : String :=
  "Text is too long. Please try with shorter text."

def ERROR_MESSAGES_QUOTA_EXCEEDED : String :=
  "Translation quota exceeded. Please try again later."

def ERROR_MESSAGES_NO_TEXT_SELECTED : String :=
  "Please select some text to translate."

def ERROR_MESSAGES_TRANSLATION_FAILED : String :=
  "Translation failed. Please try again."

/-! ## JavaScript string primitives

The JavaScript string methods the sources use (`trim`, `toLowerCase`,
`toUpperCase`) are modelled directly over the character list so that they
are kernel-computable.  `trim` strips ECMAScript WhiteSpace and
LineTerminator code points from both ends; `toLowerCase`/`toUpperCase` are
per-character case mappings (the model maps ASCII letters, which is where
the sources rely on them). -/

def jsWhitespaceChars : List Char :=
  [' ', '\t', '\n', '\r', Char.ofNat 11, Char.ofNat 12,
   Char.ofNat 0xA0, Char.ofNat 0xFEFF, Char.ofNat 0x2028, Char.ofNat 0x2029]

def isJsWhitespace (c : Char) : Bool := jsWhitespaceChars.contains c

/-- Model of `String.prototype.trim`. -/
def jsTrim (s : String) : String :=
  String.mk (((s.data.dropWhile isJsWhitespace).reverse.dropWhile isJsWhitespace).reverse)

/-- Model of `String.prototype.toLowerCase`. -/
def jsToLower (s : String) : String := String.mk (s.data.map Char.toLower)

/-- Model of `String.prototype.toUpperCase`. -/
def jsToUpper (s : String) : String := String.mk (s.data.map Char.toUpper)

/-! ## JavaScript `Map` as an association list in insertion order -/

/-- Model of `Map.prototype.get` (first matching key; a real `Map` has unique keys). -/
def mapLookup {β : Type} (k : String) : List (String × β) → Option β
  | [] => none
  | (k', v) :: t => if k = k' then some v else mapLookup k t

/-- Model of `Map.prototype.set`: overwrite in place when the key is present
(iteration order of an existing key is preserved), otherwise append. -/
def mapSet {β : Type} (k : String) (v : β) (l : List (String × β)) :
    List (String × β) :=
  if (mapLookup k l).isSome then
    l.map (fun p => if p.1 = k then (k, v) else p)
  else
    l ++ [(k, v)]

/-- Model of `Map.prototype.delete`. -/
def mapDelete {β : Type} (k : String) (l : List (String × β)) :
    List (String × β) :=
  l.filter (fun p => p.1 ≠ k)

/-! ## shared/cache-manager.ts -/

/-- Model of `CacheEntry` from `cache-manager.ts`. -/
structure CacheEntry where
  result : TranslationResult
  timestamp : Nat
  accessCount : Nat
  lastAccessed : Nat
deriving DecidableEq, Repr

/-- The mutable state of a `CacheManager` instance: the `memoryCache` map in
insertion order plus the `cacheStats` counters. -/
structure CacheState where
  entries : List (String × CacheEntry)
  hits : Nat
  misses : Nat
deriving DecidableEq, Repr

def CacheState.emptyCache : CacheState := ⟨[], 0, 0⟩

/-- One step of `hashString`'s loop:
`hash = ((hash << 5) - hash) + char; hash = hash & hash;`.
`<< 5` wraps to a signed 32-bit integer, the following subtraction and
addition are exact in a 64-bit float for these magnitudes, and `hash & hash`
coerces the result back to a signed 32-bit integer. -/
def toInt32 (n : ℤ) : ℤ := (n + 2 ^ 31) % 2 ^ 32 - 2 ^ 31

def hashStep (h : ℤ) (c : Char) : ℤ :=
  toInt32 (toInt32 (h * 32) - h + (c.toNat : ℤ))

/-- Model of `hashString` from `cache-manager.ts` (character codes are UTF-16 code
units; the model uses code points, which agree on the Basic Multilingual
Plane). -/
def hashString (s : String) : ℤ := s.data.foldl hashStep 0

/-- One base-36 digit as produced by `Number.prototype.toString(36)`. -/
def digitChar36 (n : Nat) : Char :=
  if n < 10 then Char.ofNat (48 + n) else Char.ofNat (87 + n)

/-- Digits of `n` in base 36, most significant first; the fuel argument is a
structural-termination device and any fuel `≥ n` computes all digits. -/
def toBase36Go : Nat → Nat → List Char → List Char
  | 0, _, acc => acc
  | fuel + 1, n, acc =>
    if n = 0 then acc else toBase36Go fuel (n / 36) (digitChar36 (n % 36) :: acc)

/-- Model of `Number.prototype.toString(36)` for non-negative integers. -/
def toBase36 (n : Nat) : String :=
  if n = 0 then "0" else String.mk (toBase36Go (n + 1) n [])

/-- Model of `generateCacheKey` from `cache-manager.ts`: normalize (trim + lowercase),
hash, and join with the language pair. -/
def generateCacheKey (text sourceLang targetLang : String) : String :=
  let normalizedText := jsToLower (jsTrim text)
  sourceLang ++ ":" ++ targetLang ++ ":" ++ toBase36 (hashString normalizedText).natAbs

/-- Model of `isExpired` from `cache-manager.ts`: `Date.now() - entry.timestamp >
CONFIG.CACHE_EXPIRY` (truncated subtraction agrees with the JS comparison
when `now < timestamp`, since a negative difference is not `> expiry`). -/
def isExpired (now : Nat) (entry : CacheEntry) : Bool :=
  now - entry.timestamp > CONFIG_CACHE_EXPIRY

/-- Model of `CacheManager.get`: returns the cached result (updating access
statistics) or `none`, together with the successor state. -/
def CacheManager.get (s : CacheState) (text sourceLang targetLang : String)
    (now : Nat) : Option TranslationResult × CacheState :=
  let key := generateCacheKey text sourceLang targetLang
  match mapLookup key s.entries with
  | none => (none, { s with misses := s.misses + 1 })
  | some entry =>
    if isExpired now entry then
      (none, { s with entries := mapDelete key s.entries, misses := s.misses + 1 })
    else
      let entry' := { entry with accessCount := entry.accessCount + 1, lastAccessed := now }
      (some entry.result, { s with entries := mapSet key entry' s.entries, hits := s.hits + 1 })

/-- The comparator `(a, b) => a.lastAccessed - b.lastAccessed` used by
`enforceCacheLimit`: ascending by `lastAccessed`.  A stable sort by this
comparator is `insertionSort` with the non-strict relation. -/
def lruLe (a b : String × CacheEntry) : Prop :=
  a.2.lastAccessed ≤ b.2.lastAccessed

instance : DecidableRel lruLe := fun a b =>
  Nat.decLe a.2.lastAccessed b.2.lastAccessed

/-- Model of `enforceCacheLimit` from `cache-manager.ts`, with the hard-coded
`maxEntries` bound as a parameter (the source fixes it to 1000 inside the
function). -/
def enforceCacheLimitAux (maxEntries : Nat) (entries : List (String × CacheEntry)) :
    List (String × CacheEntry) :=
  if entries.length ≤ maxEntries then entries
  else
    entries.filter (fun p =>
      p.1 ∉ ((entries.insertionSort lruLe).take (entries.length - maxEntries)).map Prod.fst)

/-- Model of `enforceCacheLimit` with the source's `maxEntries = 1000`. -/
def enforceCacheLimit (entries : List (String × CacheEntry)) :
    List (String × CacheEntry) :=
  enforceCacheLimitAux 1000 entries

/-- The body of `CacheManager.set` after the key has been computed: build the
entry, insert it, and enforce the size limit.  (Periodic persistence to
`chrome.storage` does not change the in-memory view and is not modelled.) -/
def CacheManager.setEntry (s : CacheState) (key : String)
    (result : TranslationResult) (now : Nat) : CacheState :=
  let entry : CacheEntry := ⟨result, now, 1, now⟩
  { s with entries := enforceCacheLimit (mapSet key entry s.entries) }

/-- Model of `CacheManager.set` from `cache-manager.ts`. -/
def CacheManager.set (s : CacheState) (text sourceLang targetLang : String)
    (result : TranslationResult) (now : Nat) : CacheState :=
  CacheManager.setEntry s (generateCacheKey text sourceLang targetLang) result now

/-- Model of `CacheManager.clear`. -/
def CacheManager.clear (_s : CacheState) : CacheState := ⟨[], 0, 0⟩

/-- Model of `Math.round` on exact rationals: round half toward positive infinity. -/
def mathRound (q : ℚ) : ℤ := ⌊q + 1 / 2⌋

/-- Model of `CacheStats` as returned by `getStats` (the `memoryUsage` estimate calls
`JSON.stringify` and is outside the claims; it is not modelled). -/
structure CacheStats where
  totalEntries : Nat
  hitRate : ℚ
  totalHits : Nat
  totalMisses : Nat
deriving DecidableEq, Repr

/-- Model of `CacheManager.getStats`: the hit rate is rounded to two decimal places
(`Math.round(hitRate * 100) / 100`). -/
def CacheManager.getStats (s : CacheState) : CacheStats :=
  let totalRequests := s.hits + s.misses
  let hitRate : ℚ := if totalRequests > 0 then (s.hits : ℚ) / (totalRequests : ℚ) else 0
  { totalEntries := s.entries.length
    hitRate := (mathRound (hitRate * 100) : ℚ) / 100
    totalHits := s.hits
    totalMisses := s.misses }

/-! ## shared/debounce-manager.ts — the intelligent queue -/

/-- Model of `QueueItem<T>` from `debounce-manager.ts`. -/
structure QueueItem (α : Type) where
  id : String
  data : α
  priority : ℤ
  timestamp : Nat
  retryCount : Nat
  maxRetries : Nat
deriving DecidableEq, Repr

/-- The comparator `(a, b) => b.priority - a.priority` used by `addToQueue`
and by the retry path of `processQueue`: descending by `priority`.  A stable
sort by this comparator is `insertionSort` with the non-strict relation. -/
def prioGe {α : Type} (a b : QueueItem α) : Prop := b.priority ≤ a.priority

instance {α : Type} : DecidableRel (prioGe (α := α)) := fun a b =>
  Int.decLe b.priority a.priority

/-- Model of the queue mutation of `addToQueue`: push the item and re-sort
the queue by descending priority
(`queue.sort((a, b) => b.priority - a.priority)`).  The function's final
statement, `this.processQueue(queueName)`, is a side effect on the
processing loop, not on the queue array; it is modelled at session level by
`submitBurstRun` below, which accounts for the first submission to an idle
manager being shifted out and started synchronously. -/
def addToQueue {α : Type} (q : List (QueueItem α)) (item : QueueItem α) :
    List (QueueItem α) :=
  (q ++ [item]).insertionSort prioGe

/-- One record of `processQueue` running the processor on an item: the
item's payload together with the priority and retry count it was executed
with. -/
structure ExecEvent (α : Type) where
  data : α
  priority : ℤ
  retryCount : Nat
deriving DecidableEq, Repr

/-- The retried item built by the catch branch of `processQueue`:
`item.retryCount++; item.priority = Math.max(0, item.priority - 1)`. -/
def retriedItem {α : Type} (item : QueueItem α) : QueueItem α :=
  { item with retryCount := item.retryCount + 1, priority := max 0 (item.priority - 1) }

/-- The `while (queue.length > 0)` loop of `processQueue`, which shifts one
item at a time and awaits the processor (the stored `maxConcurrency` option
is never consulted, so processing is serial).  The processor is modelled as
a pure success predicate on the payload; on failure an item with
`retryCount < maxRetries` is retried (`queue.push` then the descending
re-sort), otherwise it is dropped as a terminal failure.  The fuel argument
is a structural-termination device; `queueFuel` below always suffices. -/
def processQueueGo {α : Type} (proc : α → Bool) :
    Nat → List (QueueItem α) → List (ExecEvent α)
  | 0, _ => []
  | _ + 1, [] => []
  | fuel + 1, item :: rest =>
    let ev : ExecEvent α := ⟨item.data, item.priority, item.retryCount⟩
    if proc item.data then
      ev :: processQueueGo proc fuel rest
    else if item.retryCount < item.maxRetries then
      ev :: processQueueGo proc fuel ((rest ++ [retriedItem item]).insertionSort prioGe)
    else
      ev :: processQueueGo proc fuel rest

/-- Total remaining attempts in the queue; strictly decreases at each loop
iteration of `processQueueGo`, so it is sufficient fuel. -/
def queueFuel {α : Type} (q : List (QueueItem α)) : Nat :=
  q.foldl (fun acc it => acc + (it.maxRetries + 1 - it.retryCount)) 0

/-- Model of `processQueue` run to completion on a queue: the sequence of processor
executions it performs. -/
def processQueueRun {α : Type} (proc : α → Bool) (q : List (QueueItem α)) :
    List (ExecEvent α) :=
  processQueueGo proc (queueFuel q) q

/-- Model of a burst of synchronous `addToQueue` calls against an idle
manager.  Every `addToQueue` ends with `this.processQueue(queueName)`; the
first submission's call finds the processing flag clear, sets it, and its
`while` loop synchronously shifts that first item out of the (singleton)
queue and starts `await processor(item.data)`.  While that execution is
pending, the remaining submissions of the burst land in the tail queue —
each re-sorting it descending — and their own `processQueue` calls return
at the `processingQueues.has(queueName)` guard.  When the first execution
settles, the loop drains the sorted remainder (retries included), so the
executions are those of `processQueueGo` on the first item followed by the
sorted rest. -/
def submitBurstRun {α : Type} (proc : α → Bool) (items : List (QueueItem α)) :
    List (ExecEvent α) :=
  match items with
  | [] => []
  | first :: rest => processQueueRun proc (first :: rest.foldl addToQueue [])

/-! ## background/batch-translation-manager.ts -/

/-- Model of `isImportantContent` from `batch-translation-manager.ts`. -/
def isImportantContent (text : String) : Bool :=
  let trimmed := jsTrim text
  if trimmed.length < 100 && trimmed.length > 5 then
    true
  else if trimmed = jsToUpper trimmed && trimmed.length < 50 then
    true
  else
    false

/-- Model of `calculateTextPriority` from `batch-translation-manager.ts`: higher
values for shorter texts, earlier positions, and heading-like content. -/
def calculateTextPriority (text : String) (index : Nat) : ℤ :=
  let p1 : ℤ := if text.length < 100 then 3 else if text.length < 500 then 2 else 1
  let p2 : ℤ := max 0 (10 - (index / 10 : Nat))
  let p3 : ℤ := if isImportantContent text then 5 else 0
  p1 + p2 + p3

/-- One text the cache pass of `translateBatch` left for the queue, with the
priority it was assigned. -/
structure MissItem where
  text : String
  index : Nat
  priority : ℤ
deriving DecidableEq, Repr

/-- The cache pass of `translateBatch` (lines walking `texts` and calling
`cacheManager.get`): returns the number of cache hits counted into
`progress.completed`, the misses in submission order with their computed
priorities, and the cache state after all the `get` calls. -/
def collectCacheHitsGo (sourceLang targetLang : String) (now : Nat) :
    Nat → CacheState → List String → Nat × List MissItem × CacheState
  | _, cache, [] => (0, [], cache)
  | i, cache, text :: rest =>
    let res := CacheManager.get cache text sourceLang targetLang now
    let tail := collectCacheHitsGo sourceLang targetLang now (i + 1) res.2 rest
    match res.1 with
    | some _ => (tail.1 + 1, tail.2.1, tail.2.2)
    | none => (tail.1, ⟨text, i, calculateTextPriority text i⟩ :: tail.2.1, tail.2.2)

def collectCacheHits (texts : List String) (sourceLang targetLang : String)
    (cache : CacheState) (now : Nat) : Nat × List MissItem × CacheState :=
  collectCacheHitsGo sourceLang targetLang now 0 cache texts

/-- One invocation of the `onProgress` callback, with the fields the
progress object carries at that moment (`current` and `results` are
user-interface payload and are not modelled). -/
structure BatchProgressEvent where
  total : Nat
  completed : Nat
  percentage : ℤ
deriving DecidableEq, Repr

/-- Model of `progress.percentage = Math.round((progress.completed / progress.total) * 100)`. -/
def progressPercentage (completed total : Nat) : ℤ :=
  mathRound ((completed : ℚ) / (total : ℚ) * 100)

/-- The `onResult` completion sink of `processTextsWithQueue`: each resolved
item increments `progress.completed` and fires `onProgress`. -/
def emitResults (total : Nat) : Nat → List (ExecEvent MissItem) → List BatchProgressEvent
  | _, [] => []
  | completed, _ :: rest =>
    ⟨total, completed + 1, progressPercentage (completed + 1) total⟩ ::
      emitResults total (completed + 1) rest

/-- The queue built by the submission loop of `processTextsWithQueue`: one
`addToQueue` call per miss with the computed priority, a fresh retry count,
and `maxRetries = CONFIG.RETRY_ATTEMPTS`. -/
def buildBatchQueue (batchId : String) (missItems : List MissItem) :
    List (QueueItem MissItem) :=
  missItems.foldl
    (fun q mi =>
      addToQueue q
        ⟨batchId ++ "_" ++ toString mi.index, mi, mi.priority, 0, 0, CONFIG_RETRY_ATTEMPTS⟩)
    []

/-- The sequence of `onProgress` invocations `translateBatch` makes for a
batch, assuming every queued translation succeeds: one event covering all
cache hits together (only when there is at least one hit), then one event
per queue resolution in processing order. -/
def translateBatchProgress (texts : List String) (sourceLang targetLang : String)
    (cache : CacheState) (now : Nat) : List BatchProgressEvent :=
  let total := texts.length
  let hitCount := (collectCacheHits texts sourceLang targetLang cache now).1
  let missItems := (collectCacheHits texts sourceLang targetLang cache now).2.1
  let hitEvents : List BatchProgressEvent :=
    if hitCount > 0 then [⟨total, hitCount, progressPercentage hitCount total⟩] else []
  let order := processQueueRun (fun _ => true) (buildBatchQueue "batch" missItems)
  hitEvents ++ emitResults total hitCount order

/-! ## background/batch-translation-manager.ts — `processTranslationItem`
in-flight de-duplication via the `processingQueue` map -/

/-- The per-manager state that `processTranslationItem` consults: the
`processingQueue` map from cache key to the in-flight translation promise
(identified by a sequence number), the next promise identity, which promise
each request ended up awaiting, and the log of underlying
`translationService.translate` executions started (one per created
promise). -/
structure DedupState where
  inflight : List (String × Nat)
  nextExec : Nat
  joined : List (Nat × Nat)
  execLog : List String
deriving DecidableEq, Repr

def DedupState.init : DedupState := ⟨[], 0, [], []⟩

/-- The key `processTranslationItem` de-duplicates on:
`${sourceLang}:${targetLang}:${text}`. -/
def processingKey (text sourceLang targetLang : String) : String :=
  sourceLang ++ ":" ++ targetLang ++ ":" ++ text

/-- Events of the de-duplication protocol: a request entering
`processTranslationItem` with its key, and an in-flight promise settling
(the `finally` block that deletes the key from `processingQueue`). -/
inductive DedupEvent where
  | begin (reqId : Nat) (key : String)
  | finish (key : String)
deriving DecidableEq, Repr

/-- One transition of `processTranslationItem`'s de-duplication mechanism:
a beginning request reuses the existing in-flight promise for its key when
there is one, and otherwise creates a new promise (one underlying
execution) and publishes it in `processingQueue`; a finishing promise is
removed from `processingQueue`. -/
def dedupStep (s : DedupState) : DedupEvent → DedupState
  | .begin reqId key =>
    match mapLookup key s.inflight with
    | some execId => { s with joined := (reqId, execId) :: s.joined }
    | none =>
      { s with
        inflight := s.inflight ++ [(key, s.nextExec)]
        nextExec := s.nextExec + 1
        joined := (reqId, s.nextExec) :: s.joined
        execLog := s.execLog ++ [key] }
  | .finish key => { s with inflight := mapDelete key s.inflight }

def dedupRun (events : List DedupEvent) : DedupState :=
  events.foldl dedupStep DedupState.init

/-- Which execution a request's waiter is attached to (`joined` records the
most recent attachment first, mirroring promise identity). -/
def joinedExec (s : DedupState) (reqId : Nat) : Option Nat :=
  (s.joined.find? (fun p => p.1 = reqId)).map Prod.snd

/-- How many underlying executions have been started for a key. -/
def execCount (s : DedupState) (key : String) : Nat :=
  (s.execLog.filter (fun k => k = key)).length

/-- How many in-flight promises exist for a key. -/
def inflightCount (s : DedupState) (key : String) : Nat :=
  (s.inflight.filter (fun p => p.1 = key)).length

/-! ## shared/error-handler.ts -/

/-- Model of `isErrorRetryable` from `error-handler.ts`. -/
def isErrorRetryable (type : TranslationErrorType) : Bool :=
  type = .network_error || type = .quota_exceeded

/-- Model of `getDefaultErrorMessage` from `error-handler.ts` (the `default` branch
is unreachable for the five declared enum members and maps to
`TRANSLATION_FAILED`). -/
def getDefaultErrorMessage : TranslationErrorType → String
  | .api_unavailable => ERROR_MESSAGES_API_UNAVAILABLE
  | .network_error => ERROR_MESSAGES_NETWORK_ERROR
  | .invalid_language => ERROR_MESSAGES_INVALID_LANGUAGE
  | .text_too_long => ERROR_MESSAGES_TEXT_TOO_LONG
  | .quota_exceeded => ERROR_MESSAGES_QUOTA_EXCEEDED

/-- Model of `ErrorHandler.createError`. -/
def createError (type : TranslationErrorType) (customMessage : Option String) :
    TranslationError :=
  { type := type
    message := customMessage.getD (getDefaultErrorMessage type)
    retryable := isErrorRetryable type }

/-- Model of `ErrorHandler.validateTextLength`: empty or whitespace-only text is
rejected with an `INVALID_LANGUAGE` error, text longer than
`CONFIG.MAX_TEXT_LENGTH` with a `TEXT_TOO_LONG` error.  (`String.trim`
models the JavaScript `trim`; they agree on ASCII whitespace.) -/
def validateTextLength (text : String) : Option TranslationError :=
  if text = "" ∨ (jsTrim text).length = 0 then
    some (createError .invalid_language (some ERROR_MESSAGES_NO_TEXT_SELECTED))
  else if text.length > CONFIG_MAX_TEXT_LENGTH then
    some (createError .text_too_long
      (some ("Text exceeds maximum length of 5000 characters.")))
  else
    none

/-! ## background/translation-service.ts — `translate` -/

/-- The observable outcome of one `TranslationService.translate` call: the
returned value or thrown error, the cache state after the call (every cache
lookup mutates the cache's statistics, so an untouched cache witnesses that
no lookup happened), and how many calls were made to the external
translation/detection capability. -/
structure TranslateOutcome where
  result : Except TranslationError TranslationResult
  cacheAfter : CacheState
  capabilityCalls : Nat
deriving Repr

/-- Model of `TranslationService.translate`: validate first, then consult the cache,
then check API availability, then detect the source language if needed and
invoke the translation capability, caching the result.  The external
capabilities are oracles (`detect`, `capability`); progress-monitor glue is
not modelled. -/
def TranslationService.translate (text sourceLang targetLang : String)
    (cache : CacheState) (now : Nat) (apiAvailable : Bool)
    (detect : String → String) (capability : String → String → String → String) :
    TranslateOutcome :=
  match validateTextLength text with
  | some validationError => ⟨.error validationError, cache, 0⟩
  | none =>
    let (cachedResult, cache₁) := CacheManager.get cache text sourceLang targetLang now
    match cachedResult with
    | some r => ⟨.ok r, cache₁, 0⟩
    | none =>
      if !apiAvailable then
        ⟨.error (createError .api_unavailable none), cache₁, 0⟩
      else
        let detectedSourceLang :=
          if sourceLang = "" ∨ sourceLang = "auto" then detect text else sourceLang
        let detectCalls : Nat := if sourceLang = "" ∨ sourceLang = "auto" then 1 else 0
        let result : TranslationResult :=
          { translatedText := capability text detectedSourceLang targetLang
            detectedLanguage := some detectedSourceLang
            confidence := some (9 / 10)
            status := .completed }
        ⟨.ok result, CacheManager.set cache₁ text sourceLang targetLang result now,
          detectCalls + 1⟩

/-! ## content/content.ts — mutation / restoration layer

A document node is modelled with the value slots `content.ts` reads and
writes: text content and the `alt` / `placeholder` / `title` attributes
(`none` models an absent attribute), plus the bookkeeping attributes
`data-translate-id`, `data-translated`, `data-original-text` and
`data-processed`.  `updateElementTextContent` is modelled for nodes without
element children, where it is exactly `element.textContent = newText`.
CSS-class changes are visual styling and are not modelled. -/

structure DomNode where
  translateId : String
  tagName : String
  textContent : String
  alt : Option String
  placeholder : Option String
  title : Option String
  translated : Option String
  originalTextAttr : Option String
  processed : Option String
deriving DecidableEq, Repr

/-- The content-script state the mutation layer touches: the document's
nodes in document order and the `originalTexts` map. -/
structure PageState where
  nodes : List DomNode
  originalTexts : List (String × String)
deriving DecidableEq, Repr

/-- Model of `document.querySelector('[data-translate-id="..."]')`: first matching
node in document order. -/
def findNode (nodes : List DomNode) (elementId : String) : Option DomNode :=
  nodes.find? (fun n => n.translateId = elementId)

/-- Mutate the first node carrying the given `data-translate-id`. -/
def updateNode (elementId : String) (f : DomNode → DomNode) :
    List DomNode → List DomNode
  | [] => []
  | n :: rest =>
    if n.translateId = elementId then f n :: rest
    else n :: updateNode elementId f rest

/-- The write part of `applyTranslationToElement`: images get `alt`, inputs
get `placeholder`, nodes carrying a `title` attribute get `title`, and
everything else gets its text content replaced. -/
def applyTranslationToElement (n : DomNode) (translatedText : String) : DomNode :=
  if n.tagName = "IMG" then { n with alt := some translatedText }
  else if n.tagName = "INPUT" then { n with placeholder := some translatedText }
  else if n.title.isSome then { n with title := some translatedText }
  else { n with textContent := translatedText }

/-- Model of `streamTranslationUpdate` from `content.ts`: record
`element.textContent` in `originalTexts` unless already recorded, apply the
translation, and mark the node with `data-translated` and
`data-original-text`. -/
def streamTranslationUpdate (st : PageState) (elementId translatedText : String) :
    PageState :=
  match findNode st.nodes elementId with
  | none => st
  | some node =>
    let originalTexts :=
      if (mapLookup elementId st.originalTexts).isSome then st.originalTexts
      else mapSet elementId node.textContent st.originalTexts
    let storedOriginal := (mapLookup elementId originalTexts).getD ""
    let nodes := updateNode elementId
      (fun n =>
        let n' := applyTranslationToElement n translatedText
        { n' with translated := some "true", originalTextAttr := some storedOriginal })
      st.nodes
    ⟨nodes, originalTexts⟩

/-- Model of `markElementAsProcessed` from `content.ts`. -/
def markElementAsProcessed (st : PageState) (elementId : String) : PageState :=
  { st with nodes := updateNode elementId (fun n => { n with processed := some "true" }) st.nodes }

/-- The restoration applied to one translated node by `restoreOriginalPage`:
the guard `if (elementId && originalText)` requires both the
`data-translate-id` and the stored `data-original-text` to be truthy
(non-null, non-empty) strings; when it fails the node is left as is. -/
def restoreNode (n : DomNode) : DomNode :=
  if n.translated = some "true" then
    match n.originalTextAttr with
    | some originalText =>
      if n.translateId ≠ "" ∧ originalText ≠ "" then
        let n' :=
          if n.tagName = "IMG" then { n with alt := some originalText }
          else if n.tagName = "INPUT" then { n with placeholder := some originalText }
          else if n.title.isSome then { n with title := some originalText }
          else { n with textContent := originalText }
        { n' with translated := none, originalTextAttr := none }
      else n
    | none => n
  else n

/-- Model of `restoreOriginalPage` from `content.ts`: restore every
`[data-translated="true"]` node whose guard passes, then clear
`data-processed` flags.  (The `originalTexts` map itself is not cleared by
the source.) -/
def restoreOriginalPage (st : PageState) : PageState :=
  let restored := st.nodes.map restoreNode
  let cleared := restored.map (fun n =>
    if n.processed = some "true" then { n with processed := none } else n)
  { st with nodes := cleared }

/-! ## content/content.ts — `handleBatchTranslationResults` -/

/-- One per-element entry of a batch translation response as consumed by
`handleBatchTranslationResults`; `translatedText := some ""` models a
present-but-empty (falsy) field and `none` a missing one. -/
structure BatchResultEntry where
  success : Bool
  translatedText : Option String
deriving DecidableEq, Repr

/-- Whether `result.success && result.translatedText` is truthy. -/
def batchResultApplies (r : BatchResultEntry) : Bool :=
  r.success && (r.translatedText.getD "") ≠ ""

/-- One iteration of the `results.translations.forEach((result, index))`
loop of `handleBatchTranslationResults`: indices beyond the batch are
ignored, a successful result streams its translation onto the element, and
a failed result keeps the original text and only marks the element as
processed. -/
def handleResultStep (batch : List String) (index : Nat) (st : PageState)
    (r : BatchResultEntry) : PageState :=
  match batch[index]? with
  | none => st
  | some elementId =>
    if batchResultApplies r then
      streamTranslationUpdate st elementId (r.translatedText.getD "")
    else
      markElementAsProcessed st elementId

/-- The whole `forEach` loop of `handleBatchTranslationResults`. -/
def handleResultsGo (batch : List String) :
    Nat → PageState → List BatchResultEntry → PageState
  | _, st, [] => st
  | index, st, r :: rest =>
    handleResultsGo batch (index + 1) (handleResultStep batch index st r) rest

def handleBatchTranslationResults (results : List BatchResultEntry)
    (batch : List String) (st : PageState) : PageState :=
  handleResultsGo batch 0 st results

/-! ## Association-list lemmas -/

theorem mapLookup_eq_none_iff {β : Type} (k : String) (l : List (String × β)) :
    mapLookup k l = none ↔ ∀ p ∈ l, p.1 ≠ k := by
  induction l with
  | nil => simp [mapLookup]
  | cons p t ih =>
    obtain ⟨k', v⟩ := p
    by_cases h : k = k' <;> simp [mapLookup, h, ih, eq_comm]

theorem mapLookup_append_last {β : Type} (k : String) (v : β) (l : List (String × β))
    (h : mapLookup k l = none) : mapLookup k (l ++ [(k, v)]) = some v := by
  induction l with
  | nil => simp [mapLookup]
  | cons p t ih =>
    obtain ⟨k', v'⟩ := p
    by_cases hk : k = k'
    · simp [mapLookup, hk] at h
    · simp only [mapLookup, hk, if_false, List.cons_append, if_neg hk] at h ⊢
      exact ih h

theorem mapLookup_append_ne {β : Type} (k k' : String) (v : β) (l : List (String × β))
    (h : k' ≠ k) : mapLookup k' (l ++ [(k, v)]) = mapLookup k' l := by
  induction l with
  | nil => simp [mapLookup, h]
  | cons p t ih =>
    obtain ⟨k₀, v₀⟩ := p
    simp only [List.cons_append, mapLookup]
    by_cases hk' : k' = k₀
    · rw [if_pos hk', if_pos hk']
    · rw [if_neg hk', if_neg hk']
      exact ih

theorem mapLookup_replace_self {β : Type} (k : String) (v : β) (l : List (String × β))
    (h : (mapLookup k l).isSome) :
    mapLookup k (l.map (fun p => if p.1 = k then (k, v) else p)) = some v := by
  induction l with
  | nil => simp [mapLookup] at h
  | cons p t ih =>
    obtain ⟨k', v'⟩ := p
    simp only [List.map_cons]
    by_cases hk : k' = k
    · rw [if_pos (show ((k', v') : String × β).1 = k from hk)]
      simp [mapLookup]
    · rw [if_neg (show ¬ ((k', v') : String × β).1 = k from hk)]
      have hk2 : ¬ k = k' := fun hh => hk hh.symm
      simp only [mapLookup, if_neg hk2] at h ⊢
      exact ih h

theorem mapLookup_replace_ne {β : Type} (k k' : String) (v : β) (l : List (String × β))
    (h : k' ≠ k) :
    mapLookup k' (l.map (fun p => if p.1 = k then (k, v) else p)) = mapLookup k' l := by
  induction l with
  | nil => rfl
  | cons p t ih =>
    obtain ⟨k₀, v₀⟩ := p
    simp only [List.map_cons]
    by_cases hk : k₀ = k
    · rw [if_pos (show ((k₀, v₀) : String × β).1 = k from hk)]
      simp only [mapLookup]
      rw [if_neg h, if_neg (show ¬ k' = k₀ by rw [hk]; exact h)]
      exact ih
    · rw [if_neg (show ¬ ((k₀, v₀) : String × β).1 = k from hk)]
      simp only [mapLookup]
      by_cases hk' : k' = k₀
      · rw [if_pos hk', if_pos hk']
      · rw [if_neg hk', if_neg hk']
        exact ih

theorem mapLookup_mapSet_self {β : Type} (k : String) (v : β) (l : List (String × β)) :
    mapLookup k (mapSet k v l) = some v := by
  unfold mapSet
  split
  · next hsome => exact mapLookup_replace_self k v l hsome
  · next hnone =>
    refine mapLookup_append_last k v l ?_
    cases h : mapLookup k l with
    | none => rfl
    | some w => rw [h] at hnone; simp at hnone

theorem mapLookup_mapSet_ne {β : Type} (k k' : String) (v : β) (l : List (String × β))
    (h : k' ≠ k) : mapLookup k' (mapSet k v l) = mapLookup k' l := by
  unfold mapSet
  split
  · exact mapLookup_replace_ne k k' v l h
  · exact mapLookup_append_ne k k' v l h

theorem mapLookup_mapDelete_self {β : Type} (k : String) (l : List (String × β)) :
    mapLookup k (mapDelete k l) = none := by
  rw [mapLookup_eq_none_iff]
  intro p hp
  have := List.of_mem_filter hp
  simpa using this

theorem mapLookup_filter {β : Type} (k : String) (f : String × β → Bool)
    (l : List (String × β)) (hf : ∀ v, f (k, v) = true) :
    mapLookup k (l.filter f) = mapLookup k l := by
  induction l with
  | nil => rfl
  | cons p t ih =>
    obtain ⟨k', v⟩ := p
    by_cases hk : k = k'
    · subst hk
      rw [List.filter_cons, if_pos (hf v)]
      simp [mapLookup, ih]
    · rw [List.filter_cons]
      by_cases hfp : f (k', v) = true
      · simp only [hfp, if_true, mapLookup, if_neg hk]
        exact ih
      · simp only [hfp, if_false, mapLookup, if_neg hk]
        exact ih

/-! ## Stable-sort lemmas -/

theorem orderedInsert_append_last {α : Type} (r : α → α → Prop) [DecidableRel r]
    (a x : α) (l : List α) (hax : r a x) :
    List.orderedInsert r a (l ++ [x]) = List.orderedInsert r a l ++ [x] := by
  induction l with
  | nil => simp [List.orderedInsert, if_pos hax]
  | cons b t ih =>
    by_cases hb : r a b
    · simp [List.orderedInsert, if_pos hb]
    · simp [List.orderedInsert, if_neg hb, ih]

theorem insertionSort_append_last {α : Type} (r : α → α → Prop) [DecidableRel r]
    (l : List α) (x : α) (h : ∀ y ∈ l, r y x) :
    (l ++ [x]).insertionSort r = l.insertionSort r ++ [x] := by
  induction l with
  | nil => simp [List.insertionSort, List.orderedInsert]
  | cons a t ih =>
    have ht : ∀ y ∈ t, r y x := fun y hy => h y (List.mem_cons_of_mem a hy)
    calc ((a :: t) ++ [x]).insertionSort r
        = List.orderedInsert r a ((t ++ [x]).insertionSort r) := rfl
      _ = List.orderedInsert r a (t.insertionSort r ++ [x]) := by rw [ih ht]
      _ = List.orderedInsert r a (t.insertionSort r) ++ [x] :=
          orderedInsert_append_last r a x _ (h a (List.mem_cons_self a t))
      _ = ((a :: t).insertionSort r) ++ [x] := rfl

/-! ## Claim C2 — priority ordering of the scheduler queue -/

/-- The three tasks with priorities 1, 5 and 3, submitted in that order in
one synchronous burst to an idle queue. -/
def c2Tasks : List (QueueItem String) :=
  [⟨"t1", "p1", 1, 0, 0, 3⟩, ⟨"t2", "p5", 5, 0, 0, 3⟩, ⟨"t3", "p3", 3, 0, 0, 3⟩]

/-- C2, counterexample: with tasks of priorities 1, 5, 3 submitted in that
order to an idle queue and processed with concurrency 1, the execution
order is NOT [1, 3, 5]: the priority-1 task does run first (it is shifted
out synchronously by the auto-started `processQueue` before the others are
submitted), but the queue then sorts by `b.priority - a.priority`
(descending), so the priority-5 task runs before the priority-3 one. -/
theorem c2_counterexample :
    ¬ (submitBurstRun (fun _ => true) c2Tasks).map ExecEvent.priority = [1, 3, 5] := by
  decide

/-- C2, amended: for tasks with priorities 1, 5, 3 submitted in that order
to an idle queue and processed with concurrency 1, the execution order is
[1, 5, 3] — the first-submitted task starts immediately on submission, and
among the tasks queued while it runs a HIGHER integer priority is executed
sooner. -/
theorem c2_amended :
    (submitBurstRun (fun _ => true) c2Tasks).map ExecEvent.priority = [1, 5, 3]
    ∧ (submitBurstRun (fun _ => true) c2Tasks).map ExecEvent.data = ["p1", "p5", "p3"] := by
  decide

/-! ## Claim C1 — restoration round-trip -/

/-- An input element whose `placeholder` is "Search" and whose text content
is (necessarily) empty. -/
def c1InputNode : DomNode :=
  ⟨"n1", "INPUT", "", none, some "Search", none, none, none, none⟩

def c1Page : PageState := ⟨[c1InputNode], []⟩

/-- C1: the restoration round-trip fails on the code.  Applying a
translation to an INPUT node writes its `placeholder`, but
`streamTranslationUpdate` records `element.textContent` (the empty string)
as the original value, and `restoreOriginalPage` skips any node whose
recorded original is the empty string (the `if (elementId && originalText)`
guard), so after `restoreAll` the node still carries the translated
placeholder "TRX" instead of its pre-translation value "Search". -/
theorem c1_restoration_bug :
    (restoreOriginalPage (streamTranslationUpdate c1Page "n1" "TRX")).nodes =
      [{ c1InputNode with
          placeholder := some "TRX"
          translated := some "true"
          originalTextAttr := some "" }]
    ∧ c1InputNode.placeholder = some "Search" := by
  decide

/-! ## Claim C9 — cache statistics -/

/-- Unfolding lemma for the `hitRate` field of `getStats`. -/
theorem getStats_hitRate (s : CacheState) :
    (CacheManager.getStats s).hitRate =
      (mathRound ((if s.hits + s.misses > 0 then (s.hits : ℚ) / ((s.hits + s.misses : Nat) : ℚ) else 0) * 100) : ℚ) / 100 :=
  rfl

def c9Result : TranslationResult := { translatedText := "bonjour", status := .completed }

/-- A cache state reached by two misses (`alpha`, `beta`) followed by a
`set` and a hit on `gamma`, all at time 0: `hits = 1`, `misses = 2`. -/
def c9State : CacheState :=
  (CacheManager.get
    (CacheManager.set
      ((CacheManager.get
        ((CacheManager.get CacheState.emptyCache "alpha" "en" "fr" 0).2)
        "beta" "en" "fr" 0).2)
      "gamma" "en" "fr" c9Result 0)
    "gamma" "en" "fr" 0).2

/-- C9, counterexample: after one hit and two misses the code reports
`hitRate = Math.round((1/3)*100)/100 = 0.33`, which is not exactly
`hits / (hits + misses) = 1/3`. -/
theorem c9_counterexample :
    c9State.hits = 1 ∧ c9State.misses = 2 ∧
    ¬ (CacheManager.getStats c9State).hitRate
        = (c9State.hits : ℚ) / ((c9State.hits : ℚ) + (c9State.misses : ℚ)) := by
  refine ⟨by decide, by decide, ?_⟩
  have h1 : c9State.hits = 1 := by decide
  have h2 : c9State.misses = 2 := by decide
  rw [getStats_hitRate, h1, h2]
  norm_num [mathRound]

/-- C9, amended: `stats()` reports `hitRate` equal to
`hits / (hits + misses)` rounded to two decimal places
(`Math.round(x*100)/100`), and exactly 0 when no requests have been made;
the hit and miss counters are monotonically non-decreasing across `get`
operations (each `get` adds exactly one request) until an explicit
`clear()` resets them to 0. -/
theorem c9_amended (s : CacheState) (text sourceLang targetLang : String) (now : Nat) :
    (s.hits + s.misses = 0 → (CacheManager.getStats s).hitRate = 0)
    ∧ (0 < s.hits + s.misses →
        (CacheManager.getStats s).hitRate =
          (mathRound ((s.hits : ℚ) / ((s.hits + s.misses : Nat) : ℚ) * 100) : ℚ) / 100)
    ∧ s.hits ≤ ((CacheManager.get s text sourceLang targetLang now).2).hits
    ∧ s.misses ≤ ((CacheManager.get s text sourceLang targetLang now).2).misses
    ∧ ((CacheManager.get s text sourceLang targetLang now).2).hits
        + ((CacheManager.get s text sourceLang targetLang now).2).misses
        = s.hits + s.misses + 1
    ∧ (CacheManager.clear s).hits = 0 ∧ (CacheManager.clear s).misses = 0 := by
  refine ⟨?_, ?_, ?_, ?_, ?_, rfl, rfl⟩
  · intro h
    rw [getStats_hitRate, if_neg (by omega)]
    norm_num [mathRound]
  · intro h
    rw [getStats_hitRate, if_pos h]
  all_goals
    simp only [CacheManager.get]
    cases hl : mapLookup (generateCacheKey text sourceLang targetLang) s.entries with
    | none => simp only [hl]; omega
    | some entry =>
      by_cases he : isExpired now entry
      · simp only [hl, he, if_true]; omega
      · simp only [hl, he, Bool.false_eq_true, if_false]; omega

/-- C9, witness. -/
theorem c9_witness :
    (CacheManager.getStats CacheState.emptyCache).hitRate = 0
    ∧ ((CacheManager.getStats (⟨[], 1, 2⟩ : CacheState)).hitRate =
        (mathRound (((1 : Nat) : ℚ) / ((((1 : Nat) + (2 : Nat) : Nat)) : ℚ) * 100) : ℚ) / 100)
    ∧ (1 : Nat) ≤ ((CacheManager.get ⟨[], 1, 2⟩ "alpha" "en" "fr" 0).2).hits
    ∧ (CacheManager.clear (⟨[], 1, 2⟩ : CacheState)).hits = 0 :=
  ⟨(c9_amended CacheState.emptyCache "alpha" "en" "fr" 0).1 rfl,
   (c9_amended ⟨[], 1, 2⟩ "alpha" "en" "fr" 0).2.1 (by decide),
   (c9_amended ⟨[], 1, 2⟩ "alpha" "en" "fr" 0).2.2.1,
   (c9_amended ⟨[], 1, 2⟩ "alpha" "en" "fr" 0).2.2.2.2.2.1⟩

/-! ## Claim C10 — input validation in `translate` -/

/-- C10: every `translate` call validates its text before any cache lookup
or capability call.  Empty or whitespace-only text is rejected with a
non-retryable error of type `INVALID_LANGUAGE` (not a dedicated
invalid-input type), text longer than `CONFIG.MAX_TEXT_LENGTH = 5000` with
a non-retryable `TEXT_TOO_LONG` error; in both cases the cache is untouched
and the capability is never invoked.  Text of length exactly 5000 passes
validation. -/
theorem c10_validation (text sourceLang targetLang : String) (cache : CacheState)
    (now : Nat) (apiAvailable : Bool) (detect : String → String)
    (capability : String → String → String → String) :
    ((text = "" ∨ (jsTrim text).length = 0) →
      TranslationService.translate text sourceLang targetLang cache now apiAvailable detect capability
        = ⟨.error (createError .invalid_language (some ERROR_MESSAGES_NO_TEXT_SELECTED)), cache, 0⟩
      ∧ (createError .invalid_language (some ERROR_MESSAGES_NO_TEXT_SELECTED)).type = .invalid_language
      ∧ (createError .invalid_language (some ERROR_MESSAGES_NO_TEXT_SELECTED)).retryable = false)
    ∧ (¬ (text = "" ∨ (jsTrim text).length = 0) → CONFIG_MAX_TEXT_LENGTH < text.length →
      TranslationService.translate text sourceLang targetLang cache now apiAvailable detect capability
        = ⟨.error (createError .text_too_long (some "Text exceeds maximum length of 5000 characters.")), cache, 0⟩
      ∧ (createError .text_too_long (some "Text exceeds maximum length of 5000 characters.")).retryable = false)
    ∧ (¬ (text = "" ∨ (jsTrim text).length = 0) → text.length ≤ CONFIG_MAX_TEXT_LENGTH →
      validateTextLength text = none) := by
  refine ⟨?_, ?_, ?_⟩
  · intro h
    have hval : validateTextLength text
        = some (createError .invalid_language (some ERROR_MESSAGES_NO_TEXT_SELECTED)) := by
      unfold validateTextLength
      rw [if_pos h]
    refine ⟨?_, rfl, rfl⟩
    unfold TranslationService.translate
    rw [hval]
  · intro h hlen
    have hval : validateTextLength text
        = some (createError .text_too_long (some "Text exceeds maximum length of 5000 characters.")) := by
      unfold validateTextLength
      rw [if_neg h, if_pos hlen]
    refine ⟨?_, rfl⟩
    unfold TranslationService.translate
    rw [hval]
  · intro h hlen
    unfold validateTextLength
    rw [if_neg h, if_neg (not_lt.mpr hlen)]

def c10LongText : String := String.mk (List.replicate 5001 'x')

def c10MaxText : String := String.mk (List.replicate 5000 'x')

/-- Trimming a non-empty all-`'x'` string is the identity: the leading
character is not whitespace, so both `dropWhile` passes stop immediately. -/
theorem jsTrim_replicate_x (n : Nat) :
    jsTrim (String.mk (List.replicate (n + 1) 'x')) = String.mk (List.replicate (n + 1) 'x') := by
  unfold jsTrim
  have hx : isJsWhitespace 'x' = false := by decide
  have h1 : List.dropWhile isJsWhitespace (List.replicate (n + 1) 'x')
      = List.replicate (n + 1) 'x' := by
    rw [List.replicate_succ, List.dropWhile_cons_of_neg (by simp [hx])]
  have h2 : (List.replicate (n + 1) 'x').reverse = List.replicate (n + 1) 'x' :=
    List.reverse_replicate (n + 1) 'x'
  rw [h1, h2, h1, h2]

/-- C10, witness. -/
theorem c10_witness :
    (TranslationService.translate "" "en" "fr" CacheState.emptyCache 0 true
        (fun _ => "en") (fun t _ _ => t)
      = ⟨.error (createError .invalid_language (some ERROR_MESSAGES_NO_TEXT_SELECTED)),
          CacheState.emptyCache, 0⟩)
    ∧ (TranslationService.translate c10LongText "en" "fr" CacheState.emptyCache 0 true
        (fun _ => "en") (fun t _ _ => t)
      = ⟨.error (createError .text_too_long (some "Text exceeds maximum length of 5000 characters.")),
          CacheState.emptyCache, 0⟩)
    ∧ validateTextLength c10MaxText = none := by
  have hlong : ¬ (c10LongText = "" ∨ (jsTrim c10LongText).length = 0) := by
    rw [show c10LongText = String.mk (List.replicate (5000 + 1) 'x') from rfl,
      jsTrim_replicate_x]
    intro hor
    rcases hor with h | h
    · have hlen : (List.replicate (5000 + 1) 'x').length = ("".data).length :=
        congrArg (fun s : String => s.data.length) h
      rw [List.length_replicate] at hlen
      exact absurd hlen (by decide)
    · have hlen : (List.replicate (5000 + 1) 'x').length = 0 := h
      rw [List.length_replicate] at hlen
      exact absurd hlen (by decide)
  have hmax : ¬ (c10MaxText = "" ∨ (jsTrim c10MaxText).length = 0) := by
    rw [show c10MaxText = String.mk (List.replicate (4999 + 1) 'x') from rfl,
      jsTrim_replicate_x]
    intro hor
    rcases hor with h | h
    · have hlen : (List.replicate (4999 + 1) 'x').length = ("".data).length :=
        congrArg (fun s : String => s.data.length) h
      rw [List.length_replicate] at hlen
      exact absurd hlen (by decide)
    · have hlen : (List.replicate (4999 + 1) 'x').length = 0 := h
      rw [List.length_replicate] at hlen
      exact absurd hlen (by decide)
  refine ⟨((c10_validation "" "en" "fr" CacheState.emptyCache 0 true
      (fun _ => "en") (fun t _ _ => t)).1 (Or.inl rfl)).1,
    ((c10_validation c10LongText "en" "fr" CacheState.emptyCache 0 true
      (fun _ => "en") (fun t _ _ => t)).2.1 hlong ?_).1,
    (c10_validation c10MaxText "en" "fr" CacheState.emptyCache 0 true
      (fun _ => "en") (fun t _ _ => t)).2.2 hmax ?_⟩
  · show CONFIG_MAX_TEXT_LENGTH < (List.replicate 5001 'x').length
    rw [List.length_replicate]
    decide
  · show (List.replicate 5000 'x').length ≤ CONFIG_MAX_TEXT_LENGTH
    rw [List.length_replicate]
    decide

/-! ## Claim C3 — in-flight de-duplication -/

theorem filter_key_length_eq_zero_of_lookup_none {β : Type} (k : String)
    (l : List (String × β)) (h : mapLookup k l = none) :
    (l.filter (fun p => p.1 = k)).length = 0 := by
  rw [List.length_eq_zero, List.filter_eq_nil_iff]
  intro p hp
  have := (mapLookup_eq_none_iff k l).1 h p hp
  simpa using this

theorem dedupStep_inflight_le_one (s : DedupState)
    (hinv : ∀ k, inflightCount s k ≤ 1) (e : DedupEvent) :
    ∀ k, inflightCount (dedupStep s e) k ≤ 1 := by
  intro k
  cases e with
  | begin reqId key' =>
    simp only [dedupStep]
    cases hl : mapLookup key' s.inflight with
    | some execId => exact hinv k
    | none =>
      simp only [inflightCount] at hinv ⊢
      simp only [List.filter_append, List.length_append]
      by_cases hk : key' = k
      · subst hk
        have h0 := filter_key_length_eq_zero_of_lookup_none key' s.inflight hl
        simp [h0]
      · simp only [List.filter_cons, List.filter_nil]
        rw [if_neg (by simpa using hk)]
        simpa using hinv k
  | finish key' =>
    simp only [dedupStep, inflightCount, mapDelete]
    calc ((s.inflight.filter (fun p => p.1 ≠ key')).filter (fun p => decide (p.1 = k))).length
        ≤ (s.inflight.filter (fun p => decide (p.1 = k))).length :=
          ((List.filter_sublist s.inflight).filter _).length_le
      _ ≤ 1 := hinv k

/-- C3: if a second translation request with the same key enters
`processTranslationItem` while the first is still in flight, no new
underlying `translationService.translate` execution is started — exactly
one execution exists for the pair, and both requests are attached to the
same promise (so both waiters receive that promise's result).  Moreover,
along any event trace, at most one in-flight execution exists per key at
any time (an execution is only created when `processingQueue` has no entry
for the key, and it is removed in the `finally` block). -/
theorem c3_dedup (s : DedupState) (r1 r2 : Nat) (key : String)
    (events : List DedupEvent) (hfree : mapLookup key s.inflight = none) :
    execCount (dedupStep (dedupStep s (.begin r1 key)) (.begin r2 key)) key
      = execCount s key + 1
    ∧ joinedExec (dedupStep (dedupStep s (.begin r1 key)) (.begin r2 key)) r1
      = joinedExec (dedupStep (dedupStep s (.begin r1 key)) (.begin r2 key)) r2
    ∧ (joinedExec (dedupStep (dedupStep s (.begin r1 key)) (.begin r2 key)) r2).isSome
    ∧ inflightCount (dedupRun events) key ≤ 1 := by
  have h1 : dedupStep s (.begin r1 key) =
      { s with
        inflight := s.inflight ++ [(key, s.nextExec)]
        nextExec := s.nextExec + 1
        joined := (r1, s.nextExec) :: s.joined
        execLog := s.execLog ++ [key] } := by
    simp only [dedupStep, hfree]
  have h2 : mapLookup key (s.inflight ++ [(key, s.nextExec)]) = some s.nextExec :=
    mapLookup_append_last key s.nextExec s.inflight hfree
  have h3 : dedupStep (dedupStep s (.begin r1 key)) (.begin r2 key) =
      { s with
        inflight := s.inflight ++ [(key, s.nextExec)]
        nextExec := s.nextExec + 1
        joined := (r2, s.nextExec) :: (r1, s.nextExec) :: s.joined
        execLog := s.execLog ++ [key] } := by
    rw [h1]
    simp only [dedupStep, h2]
  refine ⟨?_, ?_, ?_, ?_⟩
  · rw [h3]
    simp only [execCount]
    simp
  · rw [h3]
    by_cases hr : r1 = r2
    · rw [hr]
    · have hr' : ¬ (r2 = r1) := fun h => hr h.symm
      simp [joinedExec, List.find?_cons, hr']
  · rw [h3]
    simp [joinedExec]
  · have : ∀ (evs : List DedupEvent) (s₀ : DedupState),
        (∀ k, inflightCount s₀ k ≤ 1) → ∀ k, inflightCount (evs.foldl dedupStep s₀) k ≤ 1 := by
      intro evs
      induction evs with
      | nil => intro s₀ h k; exact h k
      | cons e rest ih =>
        intro s₀ h k
        exact ih (dedupStep s₀ e) (dedupStep_inflight_le_one s₀ h e) k
    refine this events DedupState.init (fun k => ?_) key
    simp [inflightCount, DedupState.init]

/-- C3, witness. -/
theorem c3_witness :
    execCount
        (dedupStep (dedupStep DedupState.init (.begin 0 (processingKey "hello" "en" "fr")))
          (.begin 1 (processingKey "hello" "en" "fr")))
        (processingKey "hello" "en" "fr")
      = execCount DedupState.init (processingKey "hello" "en" "fr") + 1
    ∧ joinedExec
        (dedupStep (dedupStep DedupState.init (.begin 0 (processingKey "hello" "en" "fr")))
          (.begin 1 (processingKey "hello" "en" "fr")))
        0
      = joinedExec
        (dedupStep (dedupStep DedupState.init (.begin 0 (processingKey "hello" "en" "fr")))
          (.begin 1 (processingKey "hello" "en" "fr")))
        1
    ∧ (joinedExec
        (dedupStep (dedupStep DedupState.init (.begin 0 (processingKey "hello" "en" "fr")))
          (.begin 1 (processingKey "hello" "en" "fr")))
        1).isSome
    ∧ inflightCount
        (dedupRun [.begin 0 (processingKey "hello" "en" "fr"),
          .begin 1 (processingKey "hello" "en" "fr"),
          .finish (processingKey "hello" "en" "fr")])
        (processingKey "hello" "en" "fr") ≤ 1 :=
  c3_dedup DedupState.init 0 1 (processingKey "hello" "en" "fr")
    [.begin 0 (processingKey "hello" "en" "fr"),
     .begin 1 (processingKey "hello" "en" "fr"),
     .finish (processingKey "hello" "en" "fr")]
    rfl

/-! ## Claim C4 — retry termination -/

/-- C4, counterexample: an always-failing task queued with priority 0 and
the default `maxRetries = 3` is executed four times (the initial run plus
exactly three retries), but its retries re-enter the queue with priority
`Math.max(0, 0 - 1) = 0` — the same priority, not a lowered one, so the
priorities along the executions do not strictly decrease. -/
theorem c4_counterexample :
    (processQueueRun (fun _ => false) [⟨"t1", "x", 0, 0, 0, 3⟩]).map
        (fun e => (e.priority, e.retryCount))
      = [(0, 0), (0, 1), (0, 2), (0, 3)]
    ∧ ¬ List.Chain' (fun a b : ℤ => b < a)
        ((processQueueRun (fun _ => false) [⟨"t1", "x", 0, 0, 0, 3⟩]).map ExecEvent.priority) := by
  constructor
  · decide
  · intro hchain
    have hmap : (processQueueRun (fun _ => false)
        [(⟨"t1", "x", 0, 0, 0, 3⟩ : QueueItem String)]).map ExecEvent.priority
        = [0, 0, 0, 0] := by decide
    rw [hmap] at hchain
    exact absurd (List.chain'_cons.mp hchain).1 (by decide)

/-- C4, amended: a queued task whose execution always fails is retried
exactly `maxAttempts = 3` times after its initial execution (four
executions in total, with retry counts 0, 1, 2, 3) and is then dropped as a
terminal failure, never retried a 4th time; each retry re-enters the queue
with priority `Math.max(0, priority - 1)` — lowered by one while positive
and unchanged once it reaches zero. -/
theorem c4_amended (α : Type) (id : String) (d : α) (p : ℤ) (ts : Nat) :
    (processQueueRun (fun _ => false) [⟨id, d, p, ts, 0, CONFIG_RETRY_ATTEMPTS⟩]).map
        (fun e => (e.priority, e.retryCount))
      = [(p, 0), (max 0 (p - 1), 1), (max 0 (max 0 (p - 1) - 1), 2),
         (max 0 (max 0 (max 0 (p - 1) - 1) - 1), 3)] := by
  simp [processQueueRun, queueFuel, CONFIG_RETRY_ATTEMPTS, processQueueGo, retriedItem,
    List.insertionSort, List.orderedInsert]

/-! ## Claim C6 — cache put/get correctness and TTL expiry -/

/-- After `set` on a cache respecting the 1000-entry bound whose recorded
access times are at most `now` (a monotone clock), the key maps to the
freshly written entry: the new entry is never the one evicted, because
eviction removes the front of the stable sort by `lastAccessed` and the new
entry — carrying the largest `lastAccessed` — is sorted to the back. -/
theorem setEntry_lookup (s : CacheState) (key : String) (result : TranslationResult)
    (now : Nat) (hlen : s.entries.length ≤ 1000)
    (hla : ∀ p ∈ s.entries, p.2.lastAccessed ≤ now) :
    mapLookup key (CacheManager.setEntry s key result now).entries
      = some ⟨result, now, 1, now⟩ := by
  simp only [CacheManager.setEntry]
  by_cases hk : (mapLookup key s.entries).isSome
  · have hset : mapSet key (⟨result, now, 1, now⟩ : CacheEntry) s.entries
        = s.entries.map (fun p => if p.1 = key then (key, ⟨result, now, 1, now⟩) else p) := by
      unfold mapSet
      rw [if_pos hk]
    have hlen2 : (mapSet key (⟨result, now, 1, now⟩ : CacheEntry) s.entries).length ≤ 1000 := by
      rw [hset, List.length_map]
      exact hlen
    unfold enforceCacheLimit enforceCacheLimitAux
    rw [if_pos hlen2]
    exact mapLookup_mapSet_self key _ s.entries
  · have hnone : mapLookup key s.entries = none := Option.not_isSome_iff_eq_none.mp hk
    have hset : mapSet key (⟨result, now, 1, now⟩ : CacheEntry) s.entries
        = s.entries ++ [(key, ⟨result, now, 1, now⟩)] := by
      unfold mapSet
      rw [if_neg hk]
    rw [hset]
    unfold enforceCacheLimit enforceCacheLimitAux
    by_cases hsz : (s.entries ++ [(key, (⟨result, now, 1, now⟩ : CacheEntry))]).length ≤ 1000
    · rw [if_pos hsz]
      exact mapLookup_append_last key _ s.entries hnone
    · rw [if_neg hsz]
      have hlen1000 : s.entries.length = 1000 := by
        rw [List.length_append, List.length_singleton] at hsz
        omega
      have hsorted : (s.entries ++ [(key, (⟨result, now, 1, now⟩ : CacheEntry))]).insertionSort lruLe
          = s.entries.insertionSort lruLe ++ [(key, ⟨result, now, 1, now⟩)] :=
        insertionSort_append_last lruLe s.entries _ (fun y hy => hla y hy)
      have hrem : (s.entries ++ [(key, (⟨result, now, 1, now⟩ : CacheEntry))]).length - 1000 = 1 := by
        rw [List.length_append, List.length_singleton, hlen1000]
      obtain ⟨h₀, t₀, hht⟩ : ∃ h₀ t₀, s.entries.insertionSort lruLe = h₀ :: t₀ := by
        cases hcase : s.entries.insertionSort lruLe with
        | nil =>
          exfalso
          have := List.length_insertionSort lruLe s.entries
          rw [hcase, hlen1000] at this
          simp at this
        | cons a b => exact ⟨a, b, rfl⟩
      have hmem : h₀ ∈ s.entries := by
        have hperm := List.perm_insertionSort lruLe s.entries
        exact hperm.subset (hht ▸ List.mem_cons_self h₀ t₀)
      have hne : h₀.1 ≠ key := (mapLookup_eq_none_iff key s.entries).mp hnone h₀ hmem
      rw [hsorted, hrem, hht]
      rw [show (h₀ :: t₀) ++ [(key, (⟨result, now, 1, now⟩ : CacheEntry))]
          = h₀ :: (t₀ ++ [(key, ⟨result, now, 1, now⟩)]) from rfl]
      rw [show List.take 1 (h₀ :: (t₀ ++ [(key, (⟨result, now, 1, now⟩ : CacheEntry))])) = [h₀] by
        simp [List.take]]
      rw [mapLookup_filter key _ _ (by
        intro v
        simp [hne.symm])]
      exact mapLookup_append_last key _ s.entries hnone

/-- C6: a `set` followed by an immediate `get` with the same arguments
returns the stored result; once more than the TTL
(`CONFIG.CACHE_EXPIRY = 3600000` ms, one hour) has elapsed since the `set`,
a `get` for the key returns `none`, deletes the expired entry, and counts
the access as a miss.  The hypotheses are the reachable-state invariants: a
cache never holds more than 1000 entries, and recorded access times never
exceed the current clock. -/
theorem c6_cache_correctness (text sourceLang targetLang : String)
    (result : TranslationResult) (s : CacheState) (now : Nat)
    (hlen : s.entries.length ≤ 1000)
    (hla : ∀ p ∈ s.entries, p.2.lastAccessed ≤ now) :
    ((CacheManager.get (CacheManager.set s text sourceLang targetLang result now)
        text sourceLang targetLang now).1 = some result)
    ∧ ∀ later : Nat, CONFIG_CACHE_EXPIRY < later - now →
        ((CacheManager.get (CacheManager.set s text sourceLang targetLang result now)
            text sourceLang targetLang later).1 = none
        ∧ mapLookup (generateCacheKey text sourceLang targetLang)
            ((CacheManager.get (CacheManager.set s text sourceLang targetLang result now)
              text sourceLang targetLang later).2).entries = none
        ∧ ((CacheManager.get (CacheManager.set s text sourceLang targetLang result now)
            text sourceLang targetLang later).2).misses
          = (CacheManager.set s text sourceLang targetLang result now).misses + 1) := by
  have hlookup : mapLookup (generateCacheKey text sourceLang targetLang)
      (CacheManager.set s text sourceLang targetLang result now).entries
      = some ⟨result, now, 1, now⟩ :=
    setEntry_lookup s (generateCacheKey text sourceLang targetLang) result now hlen hla
  constructor
  · simp only [CacheManager.get, hlookup]
    have hexp : isExpired now (⟨result, now, 1, now⟩ : CacheEntry) = false := by
      simp [isExpired, CONFIG_CACHE_EXPIRY]
    rw [hexp]
    simp
  · intro later hlater
    have hexp : isExpired later (⟨result, now, 1, now⟩ : CacheEntry) = true := by
      simp only [isExpired]
      simpa using hlater
    simp only [CacheManager.get, hlookup, hexp]
    refine ⟨rfl, ?_, rfl⟩
    simp only [if_true]
    exact mapLookup_mapDelete_self _ _

/-- C6, witness. -/
theorem c6_witness :
    ((CacheManager.get
        (CacheManager.set CacheState.emptyCache "hello" "en" "fr"
          { translatedText := "bonjour", status := .completed } 5)
        "hello" "en" "fr" 5).1
      = some { translatedText := "bonjour", status := .completed })
    ∧ ((CacheManager.get
        (CacheManager.set CacheState.emptyCache "hello" "en" "fr"
          { translatedText := "bonjour", status := .completed } 5)
        "hello" "en" "fr" 3600006).1 = none) :=
  ⟨(c6_cache_correctness "hello" "en" "fr"
      { translatedText := "bonjour", status := .completed }
      CacheState.emptyCache 5 (by decide) (by intro p hp; simp [CacheState.emptyCache] at hp)).1,
   ((c6_cache_correctness "hello" "en" "fr"
      { translatedText := "bonjour", status := .completed }
      CacheState.emptyCache 5 (by decide) (by intro p hp; simp [CacheState.emptyCache] at hp)).2
      3600006 (by decide)).1⟩

/-! ## Claim C7 — streaming progress -/

theorem addToQueue_length {α : Type} (q : List (QueueItem α)) (item : QueueItem α) :
    (addToQueue q item).length = q.length + 1 := by
  unfold addToQueue
  rw [List.length_insertionSort, List.length_append, List.length_singleton]

theorem addToQueue_mem {α : Type} (q : List (QueueItem α)) (item it : QueueItem α)
    (h : it ∈ addToQueue q item) : it ∈ q ∨ it = item := by
  unfold addToQueue at h
  have hmem := (List.perm_insertionSort prioGe (q ++ [item])).subset h
  rcases List.mem_append.mp hmem with h1 | h1
  · exact Or.inl h1
  · exact Or.inr (List.mem_singleton.mp h1)

theorem foldl_addToQueue_length (batchId : String) :
    ∀ (l : List MissItem) (q : List (QueueItem MissItem)),
      (l.foldl (fun q mi => addToQueue q
        ⟨batchId ++ "_" ++ toString mi.index, mi, mi.priority, 0, 0, CONFIG_RETRY_ATTEMPTS⟩) q).length
      = q.length + l.length := by
  intro l
  induction l with
  | nil => intro q; simp
  | cons mi rest ih =>
    intro q
    simp only [List.foldl_cons, List.length_cons]
    rw [ih, addToQueue_length]
    omega

theorem foldl_addToQueue_mem (batchId : String) :
    ∀ (l : List MissItem) (q : List (QueueItem MissItem)) (it : QueueItem MissItem),
      it ∈ l.foldl (fun q mi => addToQueue q
        ⟨batchId ++ "_" ++ toString mi.index, mi, mi.priority, 0, 0, CONFIG_RETRY_ATTEMPTS⟩) q →
      it ∈ q ∨ (it.retryCount = 0 ∧ it.maxRetries = CONFIG_RETRY_ATTEMPTS) := by
  intro l
  induction l with
  | nil => intro q it h; exact Or.inl h
  | cons mi rest ih =>
    intro q it h
    simp only [List.foldl_cons] at h
    rcases ih _ it h with h1 | h1
    · rcases addToQueue_mem _ _ _ h1 with h2 | h2
      · exact Or.inl h2
      · subst h2
        exact Or.inr ⟨rfl, rfl⟩
    · exact Or.inr h1

theorem queueFuel_ge_length {α : Type} (q : List (QueueItem α))
    (h : ∀ it ∈ q, it.retryCount ≤ it.maxRetries) : q.length ≤ queueFuel q := by
  unfold queueFuel
  have haux : ∀ (l : List (QueueItem α)) (n : Nat),
      (∀ it ∈ l, it.retryCount ≤ it.maxRetries) →
      n + l.length ≤ l.foldl (fun acc it => acc + (it.maxRetries + 1 - it.retryCount)) n := by
    intro l
    induction l with
    | nil => intro n _; simp
    | cons it rest ih =>
      intro n hl
      simp only [List.foldl_cons, List.length_cons]
      have h1 : it.retryCount ≤ it.maxRetries := hl it (List.mem_cons_self it rest)
      have h2 := ih (n + (it.maxRetries + 1 - it.retryCount))
        (fun x hx => hl x (List.mem_cons_of_mem _ hx))
      omega
  have := haux q 0 h
  omega

theorem processQueueGo_success {α : Type} :
    ∀ (fuel : Nat) (q : List (QueueItem α)), q.length ≤ fuel →
      processQueueGo (fun _ => true) fuel q
        = q.map (fun it => ⟨it.data, it.priority, it.retryCount⟩) := by
  intro fuel
  induction fuel with
  | zero =>
    intro q hq
    cases q with
    | nil => rfl
    | cons item rest => simp at hq
  | succ fuel ih =>
    intro q hq
    cases q with
    | nil => rfl
    | cons item rest =>
      simp only [processQueueGo, List.map_cons]
      rw [ih rest (by simp at hq; omega)]
      simp

theorem emitResults_map_completed (total : Nat) :
    ∀ (l : List (ExecEvent MissItem)) (c : Nat),
      (emitResults total c l).map (fun e => e.completed) = List.range' (c + 1) l.length := by
  intro l
  induction l with
  | nil => intro c; rfl
  | cons e rest ih =>
    intro c
    simp only [emitResults, List.map_cons, List.length_cons, List.range'_succ]
    rw [ih (c + 1)]

theorem emitResults_fields (total : Nat) :
    ∀ (l : List (ExecEvent MissItem)) (c : Nat),
      ∀ e ∈ emitResults total c l,
        e.total = total ∧ e.percentage = progressPercentage e.completed total := by
  intro l
  induction l with
  | nil => intro c e he; cases he
  | cons ev rest ih =>
    intro c e he
    rcases List.mem_cons.mp he with h1 | h1
    · subst h1
      exact ⟨rfl, rfl⟩
    · exact ih (c + 1) e h1

theorem collectCacheHitsGo_counts (sourceLang targetLang : String) (now : Nat) :
    ∀ (texts : List String) (i : Nat) (cache : CacheState),
      (collectCacheHitsGo sourceLang targetLang now i cache texts).1
        + (collectCacheHitsGo sourceLang targetLang now i cache texts).2.1.length
      = texts.length := by
  intro texts
  induction texts with
  | nil => intro i cache; rfl
  | cons text rest ih =>
    intro i cache
    simp only [collectCacheHitsGo]
    cases hres : (CacheManager.get cache text sourceLang targetLang now).1 with
    | some r =>
      simp only [hres, List.length_cons]
      have := ih (i + 1) (CacheManager.get cache text sourceLang targetLang now).2
      omega
    | none =>
      simp only [hres, List.length_cons]
      have := ih (i + 1) (CacheManager.get cache text sourceLang targetLang now).2
      omega

/-- C7, amended: for a batch of N units with h cache hits and m = N − h
misses, `onProgress` is invoked once for all cache hits together (with
`completed = h`, and only when `h > 0`), then once per miss as it resolves,
with `completed` running through h+1, …, N; at every invocation
`percentage = Math.round(100 * completed / N)` and `total = N`.  In
particular `completed` is strictly increasing, and when `h ≤ 1` the
callback is invoked exactly N times with `completed` from 1 to N, but with
two or more cache hits it is invoked fewer than N times. -/
theorem c7_amended (texts : List String) (sourceLang targetLang : String)
    (cache : CacheState) (now : Nat) :
    (collectCacheHits texts sourceLang targetLang cache now).1
      + (collectCacheHits texts sourceLang targetLang cache now).2.1.length
      = texts.length
    ∧ (translateBatchProgress texts sourceLang targetLang cache now).map (fun e => e.completed)
      = (if 0 < (collectCacheHits texts sourceLang targetLang cache now).1
          then [(collectCacheHits texts sourceLang targetLang cache now).1] else [])
        ++ List.range' ((collectCacheHits texts sourceLang targetLang cache now).1 + 1)
            (collectCacheHits texts sourceLang targetLang cache now).2.1.length
    ∧ ∀ e ∈ translateBatchProgress texts sourceLang targetLang cache now,
        e.total = texts.length
        ∧ e.percentage = progressPercentage e.completed texts.length := by
  have horder : processQueueRun (fun _ => true)
      (buildBatchQueue "batch" (collectCacheHits texts sourceLang targetLang cache now).2.1)
      = (buildBatchQueue "batch" (collectCacheHits texts sourceLang targetLang cache now).2.1).map
          (fun it => ⟨it.data, it.priority, it.retryCount⟩) := by
    apply processQueueGo_success
    apply queueFuel_ge_length
    intro it hit
    rcases foldl_addToQueue_mem "batch" _ [] it hit with h1 | h1
    · cases h1
    · rw [h1.1, h1.2]
      decide
  have hqlen : (buildBatchQueue "batch"
      (collectCacheHits texts sourceLang targetLang cache now).2.1).length
      = (collectCacheHits texts sourceLang targetLang cache now).2.1.length := by
    unfold buildBatchQueue
    rw [foldl_addToQueue_length]
    simp
  refine ⟨collectCacheHitsGo_counts sourceLang targetLang now texts 0 cache, ?_, ?_⟩
  · simp only [translateBatchProgress, List.map_append, horder]
    congr 1
    · split
      · rfl
      · rfl
    · rw [emitResults_map_completed, List.length_map, hqlen]
  · intro e he
    simp only [translateBatchProgress] at he
    rcases List.mem_append.mp he with h1 | h1
    · by_cases hpos : 0 < (collectCacheHits texts sourceLang targetLang cache now).1
      · rw [if_pos hpos] at h1
        have he1 := List.mem_singleton.mp h1
        subst he1
        exact ⟨rfl, rfl⟩
      · rw [if_neg hpos] at h1
        cases h1
    · exact emitResults_fields texts.length _ _ e h1

/-- A cache holding translations for both texts of the counterexample
batch, inserted at time 100. -/
def c7Cache : CacheState :=
  CacheManager.set
    (CacheManager.set CacheState.emptyCache "hello" "en" "fr"
      { translatedText := "bonjour", status := .completed } 100)
    "world" "en" "fr" { translatedText := "monde", status := .completed } 100

/-- C7, counterexample: for a batch of N = 2 units that are both cache
hits, `onProgress` is invoked exactly once (with `completed = 2`), not N
times with `completed` strictly increasing from 1 — all cache hits share a
single progress invocation. -/
theorem c7_counterexample :
    ((translateBatchProgress ["hello", "world"] "en" "fr" c7Cache 200).map
        (fun e => e.completed) = [2])
    ∧ ¬ ((translateBatchProgress ["hello", "world"] "en" "fr" c7Cache 200).length
        = (["hello", "world"] : List String).length) := by
  decide

/-- C7, witness. -/
theorem c7_witness :
    (collectCacheHits ["aa", "bb", "cc"] "en" "fr" CacheState.emptyCache 200).1
      + (collectCacheHits ["aa", "bb", "cc"] "en" "fr" CacheState.emptyCache 200).2.1.length
      = (["aa", "bb", "cc"] : List String).length
    ∧ (translateBatchProgress ["aa", "bb", "cc"] "en" "fr" CacheState.emptyCache 200).map
        (fun e => e.completed)
      = (if 0 < (collectCacheHits ["aa", "bb", "cc"] "en" "fr" CacheState.emptyCache 200).1
          then [(collectCacheHits ["aa", "bb", "cc"] "en" "fr" CacheState.emptyCache 200).1]
          else [])
        ++ List.range'
            ((collectCacheHits ["aa", "bb", "cc"] "en" "fr" CacheState.emptyCache 200).1 + 1)
            (collectCacheHits ["aa", "bb", "cc"] "en" "fr" CacheState.emptyCache 200).2.1.length :=
  ⟨(c7_amended ["aa", "bb", "cc"] "en" "fr" CacheState.emptyCache 200).1,
   (c7_amended ["aa", "bb", "cc"] "en" "fr" CacheState.emptyCache 200).2.1⟩

/-! ## Claim C8 — a single terminal failure does not abort the batch -/

theorem applyTranslationToElement_translateId (n : DomNode) (t : String) :
    (applyTranslationToElement n t).translateId = n.translateId := by
  unfold applyTranslationToElement
  split_ifs <;> rfl

theorem findNode_updateNode_self (nodes : List DomNode) (elementId : String)
    (f : DomNode → DomNode) (hf : ∀ n, (f n).translateId = n.translateId) :
    findNode (updateNode elementId f nodes) elementId
      = (findNode nodes elementId).map f := by
  induction nodes with
  | nil => rfl
  | cons n rest ih =>
    simp only [updateNode]
    by_cases hn : n.translateId = elementId
    · rw [if_pos hn]
      simp [findNode, List.find?_cons, hf n, hn]
    · rw [if_neg hn]
      simp only [findNode, List.find?_cons] at ih ⊢
      rw [show (decide (n.translateId = elementId)) = false by simp [hn]]
      exact ih

theorem findNode_updateNode_ne (nodes : List DomNode) (elementId id' : String)
    (f : DomNode → DomNode) (hf : ∀ n, (f n).translateId = n.translateId)
    (hne : id' ≠ elementId) :
    findNode (updateNode elementId f nodes) id' = findNode nodes id' := by
  have hES : elementId ≠ id' := Ne.symm hne
  induction nodes with
  | nil => rfl
  | cons n rest ih =>
    simp only [updateNode]
    by_cases hn : n.translateId = elementId
    · rw [if_pos hn]
      have h1 : (decide ((f n).translateId = id')) = false := by
        simp [hf n, hn, hES]
      have h2 : (decide (n.translateId = id')) = false := by
        simp [hn, hES]
      simp only [findNode, List.find?_cons, h1, h2]
    · rw [if_neg hn]
      simp only [findNode, List.find?_cons] at ih ⊢
      cases hd : (decide (n.translateId = id'))
      · exact ih
      · rfl

/-- The function `streamTranslationUpdate` applies to the found node
preserves its identity. -/
theorem streamUpdateFun_translateId (t orig : String) (n : DomNode) :
    ({ applyTranslationToElement n t with
        translated := some "true", originalTextAttr := some orig } : DomNode).translateId
      = n.translateId := by
  have := applyTranslationToElement_translateId n t
  unfold applyTranslationToElement at this ⊢
  split_ifs <;> simp_all

theorem streamTranslationUpdate_findNode_ne (st : PageState) (elementId t id' : String)
    (hne : id' ≠ elementId) :
    findNode (streamTranslationUpdate st elementId t).nodes id' = findNode st.nodes id' := by
  unfold streamTranslationUpdate
  cases h : findNode st.nodes elementId with
  | none => rfl
  | some node =>
    exact findNode_updateNode_ne st.nodes elementId id' _
      (fun n => streamUpdateFun_translateId t _ n) hne

theorem streamTranslationUpdate_translated (st : PageState) (elementId t : String)
    (h : (findNode st.nodes elementId).isSome = true) :
    ∃ n', findNode (streamTranslationUpdate st elementId t).nodes elementId = some n'
      ∧ n'.translated = some "true" := by
  unfold streamTranslationUpdate
  cases hfind : findNode st.nodes elementId with
  | none => rw [hfind] at h; simp at h
  | some node =>
    rw [findNode_updateNode_self st.nodes elementId _
      (fun n => streamUpdateFun_translateId t _ n), hfind]
    exact ⟨_, rfl, rfl⟩

theorem markElementAsProcessed_findNode_ne (st : PageState) (elementId id' : String)
    (hne : id' ≠ elementId) :
    findNode (markElementAsProcessed st elementId).nodes id' = findNode st.nodes id' := by
  unfold markElementAsProcessed
  exact findNode_updateNode_ne st.nodes elementId id' _ (fun n => rfl) hne

theorem markElementAsProcessed_findNode_self (st : PageState) (elementId : String) :
    findNode (markElementAsProcessed st elementId).nodes elementId
      = (findNode st.nodes elementId).map (fun n => { n with processed := some "true" }) := by
  unfold markElementAsProcessed
  exact findNode_updateNode_self st.nodes elementId _ (fun n => rfl)

theorem handleResultStep_some (batch : List String) (index : Nat) (st : PageState)
    (r : BatchResultEntry) (elementId : String) (hb : batch[index]? = some elementId) :
    handleResultStep batch index st r
      = if batchResultApplies r then
          streamTranslationUpdate st elementId (r.translatedText.getD "")
        else markElementAsProcessed st elementId := by
  unfold handleResultStep
  rw [hb]

theorem handleResultStep_none (batch : List String) (index : Nat) (st : PageState)
    (r : BatchResultEntry) (hb : batch[index]? = none) :
    handleResultStep batch index st r = st := by
  unfold handleResultStep
  rw [hb]

/-- Frame property: `handleResultsGo` starting at `index` never touches a
node whose id differs from every batch id at position `≥ index`. -/
theorem handleResultsGo_frame (batch : List String) :
    ∀ (results : List BatchResultEntry) (index : Nat) (st : PageState) (id : String),
      (∀ i (hi : i < batch.length), index ≤ i → batch[i] ≠ id) →
      findNode (handleResultsGo batch index st results).nodes id = findNode st.nodes id := by
  intro results
  induction results with
  | nil => intro index st id _; rfl
  | cons r rest ih =>
    intro index st id h
    simp only [handleResultsGo]
    rw [ih (index + 1) _ id (fun i hi hge => h i hi (by omega))]
    cases hb : batch[index]? with
    | none => rw [handleResultStep_none batch index st r hb]
    | some elementId =>
      have hlt : index < batch.length := by
        by_contra hcon
        rw [List.getElem?_eq_none (by omega)] at hb
        cases hb
      have hbv : batch[index] = elementId := by
        rw [List.getElem?_eq_getElem hlt] at hb
        exact Option.some.inj hb
      have hne : id ≠ elementId := fun hid => (h index hlt le_rfl) (hbv.trans hid.symm)
      rw [handleResultStep_some batch index st r elementId hb]
      by_cases happ : batchResultApplies r = true
      · rw [if_pos happ]
        exact streamTranslationUpdate_findNode_ne st elementId _ id hne
      · rw [if_neg happ]
        exact markElementAsProcessed_findNode_ne st elementId id hne

/-- Positional property of `handleResultsGo`: position `i`'s node is
transformed exactly by its own result entry. -/
theorem handleResultsGo_at (batch : List String) (hnodup : batch.Nodup) :
    ∀ (results : List BatchResultEntry) (index : Nat) (st : PageState) (i : Nat)
      (hi : i < batch.length) (r : BatchResultEntry),
      index ≤ i → results[i - index]? = some r →
      ((batchResultApplies r = false →
        findNode (handleResultsGo batch index st results).nodes batch[i]
          = (findNode st.nodes batch[i]).map (fun n => { n with processed := some "true" }))
      ∧ (batchResultApplies r = true → (findNode st.nodes batch[i]).isSome = true →
        ∃ n', findNode (handleResultsGo batch index st results).nodes batch[i] = some n'
          ∧ n'.translated = some "true")) := by
  intro results
  induction results with
  | nil =>
    intro index st i hi r hidx hr
    simp at hr
  | cons rh rt ih =>
    intro index st i hi r hidx hr
    have hgetid : ∀ k (hk : k < batch.length), k ≠ i → batch[k] ≠ batch[i] := by
      intro k hk hki hcon
      exact hki (by
        have := (List.Nodup.get_inj_iff hnodup (i := ⟨k, hk⟩) (j := ⟨i, hi⟩)).mp
        simpa using this (by simpa using hcon))
    by_cases hii : index = i
    · subst hii
      rw [Nat.sub_self] at hr
      simp only [List.getElem?_cons_zero] at hr
      have hrrh : r = rh := by injection hr with h; exact h.symm
      subst hrrh
      simp only [handleResultsGo]
      rw [handleResultStep_some batch index st r batch[index]
        (List.getElem?_eq_getElem hi)]
      have hframe : ∀ k (hk : k < batch.length), index + 1 ≤ k → batch[k] ≠ batch[index] :=
        fun k hk hge => hgetid k hk (by omega)
      constructor
      · intro hfalse
        rw [if_neg (by rw [hfalse]; simp)]
        rw [handleResultsGo_frame batch rt (index + 1) _ batch[index] hframe]
        exact markElementAsProcessed_findNode_self st batch[index]
      · intro htrue hsome
        rw [if_pos htrue]
        obtain ⟨n', hn', htrans⟩ :=
          streamTranslationUpdate_translated st batch[index] (r.translatedText.getD "") hsome
        refine ⟨n', ?_, htrans⟩
        rw [handleResultsGo_frame batch rt (index + 1) _ batch[index] hframe]
        exact hn'
    · have hlt : index < i := lt_of_le_of_ne hidx hii
      have hltlen : index < batch.length := by omega
      have hne : batch[i] ≠ batch[index] := Ne.symm (hgetid index hltlen (by omega))
      have hr' : rt[i - (index + 1)]? = some r := by
        have heq : i - index = (i - (index + 1)) + 1 := by omega
        rw [heq] at hr
        simpa using hr
      simp only [handleResultsGo]
      rw [handleResultStep_some batch index st rh batch[index]
        (List.getElem?_eq_getElem hltlen)]
      by_cases happ : batchResultApplies rh = true
      · rw [if_pos happ]
        have hframe1 : findNode (streamTranslationUpdate st batch[index]
            (rh.translatedText.getD "")).nodes batch[i] = findNode st.nodes batch[i] :=
          streamTranslationUpdate_findNode_ne st batch[index] _ batch[i] hne
        have := ih (index + 1) (streamTranslationUpdate st batch[index]
          (rh.translatedText.getD "")) i hi r (by omega) hr'
        refine ⟨fun hf => ?_, fun ht hs => ?_⟩
        · rw [this.1 hf, hframe1]
        · exact this.2 ht (by rw [hframe1]; exact hs)
      · rw [if_neg happ]
        have hframe1 : findNode (markElementAsProcessed st batch[index]).nodes batch[i]
            = findNode st.nodes batch[i] :=
          markElementAsProcessed_findNode_ne st batch[index] batch[i] hne
        have := ih (index + 1) (markElementAsProcessed st batch[index]) i hi r (by omega) hr'
        refine ⟨fun hf => ?_, fun ht hs => ?_⟩
        · rw [this.1 hf, hframe1]
        · exact this.2 ht (by rw [hframe1]; exact hs)

/-- C8: when one unit of a batch fails terminally, only that unit is
affected — its node keeps all its value slots (text, alt, placeholder,
title) unchanged and is merely marked `data-processed` — while every other
unit whose result arrived successfully is still applied to its node
(`data-translated="true"`): a single failing fragment never aborts the
batch and never produces a partial or garbled mutation on its node. -/
theorem c8_single_failure (st : PageState) (batch : List String)
    (results : List BatchResultEntry) (j : Nat) (rj : BatchResultEntry)
    (hnodup : batch.Nodup) (hj : j < batch.length)
    (hrj : results[j]? = some rj) (hfail : rj.success = false) :
    (findNode (handleBatchTranslationResults results batch st).nodes batch[j]
      = (findNode st.nodes batch[j]).map (fun n => { n with processed := some "true" }))
    ∧ ∀ i (hi : i < batch.length) (ri : BatchResultEntry),
        results[i]? = some ri → batchResultApplies ri = true →
        (findNode st.nodes batch[i]).isSome = true →
        ∃ n', findNode (handleBatchTranslationResults results batch st).nodes batch[i] = some n'
          ∧ n'.translated = some "true" := by
  constructor
  · have h := handleResultsGo_at batch hnodup results 0 st j hj rj (Nat.zero_le j)
      (by simpa using hrj)
    exact h.1 (by simp [batchResultApplies, hfail])
  · intro i hi ri hri happ hsome
    have h := handleResultsGo_at batch hnodup results 0 st i hi ri (Nat.zero_le i)
      (by simpa using hri)
    exact h.2 happ hsome

def c8NodeA : DomNode := ⟨"a", "P", "Hello", none, none, none, none, none, none⟩

def c8NodeB : DomNode := ⟨"b", "P", "World", none, none, none, none, none, none⟩

def c8Page : PageState := ⟨[c8NodeA, c8NodeB], []⟩

def c8Batch : List String := ["a", "b"]

def c8Results : List BatchResultEntry := [⟨false, none⟩, ⟨true, some "Bonjour"⟩]

/-- C8, witness. -/
theorem c8_witness :
    (findNode (handleBatchTranslationResults c8Results c8Batch c8Page).nodes "a"
      = (findNode c8Page.nodes "a").map (fun n => { n with processed := some "true" }))
    ∧ ∃ n', findNode (handleBatchTranslationResults c8Results c8Batch c8Page).nodes "b" = some n'
        ∧ n'.translated = some "true" :=
  ⟨(c8_single_failure c8Page c8Batch c8Results 0 ⟨false, none⟩ (by decide) (by decide)
      rfl rfl).1,
   (c8_single_failure c8Page c8Batch c8Results 0 ⟨false, none⟩ (by decide) (by decide)
      rfl rfl).2 1 (by decide) ⟨true, some "Bonjour"⟩ rfl (by decide) (by decide)⟩

/-! ## Claim C5 — LRU eviction bound -/

/-- The cache entry created by `set` for an insertion `(key, time, result)`:
`timestamp`, `lastAccessed` both the insertion time, `accessCount` 1. -/
def entryOfInsert (it : String × Nat × TranslationResult) : String × CacheEntry :=
  (it.1, ⟨it.2.2, it.2.1, 1, it.2.1⟩)

/-- A sequence of `set` operations at the key level (the post-key body of
`CacheManager.set`), each with its own clock reading. -/
def insertSeq (s : CacheState) : List (String × Nat × TranslationResult) → CacheState
  | [] => s
  | it :: rest => insertSeq (CacheManager.setEntry s it.1 it.2.2 it.2.1) rest

/-- One `setEntry` on a sorted, duplicate-free cache appends the new entry
and, when the 1000-entry bound is exceeded, evicts exactly the front
(least-recently-accessed) entry: the stable sort of an already-sorted list
is the list itself, so the filter removes precisely the head. -/
theorem setEntry_entries_sorted (s : CacheState) (key : String)
    (result : TranslationResult) (t : Nat)
    (hlen : s.entries.length ≤ 1000)
    (hsorted : s.entries.Pairwise lruLe)
    (hnodup : (s.entries.map Prod.fst).Nodup)
    (hla : ∀ p ∈ s.entries, p.2.lastAccessed ≤ t)
    (hkey : key ∉ s.entries.map Prod.fst) :
    (CacheManager.setEntry s key result t).entries
      = (s.entries ++ [(key, (⟨result, t, 1, t⟩ : CacheEntry))]).drop
          (s.entries.length + 1 - 1000) := by
  have hnone : mapLookup key s.entries = none := by
    rw [mapLookup_eq_none_iff]
    intro p hp hcon
    exact hkey (hcon ▸ List.mem_map_of_mem Prod.fst hp)
  simp only [CacheManager.setEntry]
  have hset : mapSet key (⟨result, t, 1, t⟩ : CacheEntry) s.entries
      = s.entries ++ [(key, (⟨result, t, 1, t⟩ : CacheEntry))] := by
    unfold mapSet
    rw [hnone]
    simp
  rw [hset]
  unfold enforceCacheLimit enforceCacheLimitAux
  by_cases hsz : (s.entries ++ [(key, (⟨result, t, 1, t⟩ : CacheEntry))]).length ≤ 1000
  · rw [if_pos hsz]
    have hz : s.entries.length + 1 - 1000 = 0 := by
      rw [List.length_append, List.length_singleton] at hsz
      omega
    rw [hz, List.drop_zero]
  · rw [if_neg hsz]
    have hlen1000 : s.entries.length = 1000 := by
      rw [List.length_append, List.length_singleton] at hsz
      omega
    have hsortedA : (s.entries ++ [(key, (⟨result, t, 1, t⟩ : CacheEntry))]).Pairwise lruLe := by
      rw [List.pairwise_append]
      refine ⟨hsorted, List.pairwise_singleton _ _, ?_⟩
      intro a ha b hb
      rw [List.mem_singleton] at hb
      subst hb
      exact hla a ha
    have hid : (s.entries ++ [(key, (⟨result, t, 1, t⟩ : CacheEntry))]).insertionSort lruLe
        = s.entries ++ [(key, (⟨result, t, 1, t⟩ : CacheEntry))] :=
      List.Sorted.insertionSort_eq hsortedA
    rw [hid]
    have hrem : (s.entries ++ [(key, (⟨result, t, 1, t⟩ : CacheEntry))]).length - 1000 = 1 := by
      rw [List.length_append, List.length_singleton, hlen1000]
    rw [hrem]
    obtain ⟨h₀, t₀, hht⟩ : ∃ h₀ t₀, s.entries = h₀ :: t₀ := by
      cases hc : s.entries with
      | nil => rw [hc] at hlen1000; simp at hlen1000
      | cons a b => exact ⟨a, b, rfl⟩
    have hmem0 : h₀.1 ∈ s.entries.map Prod.fst := by
      rw [hht]
      exact List.mem_map_of_mem Prod.fst (List.mem_cons_self h₀ t₀)
    have hdistinct : ∀ p ∈ t₀ ++ [(key, (⟨result, t, 1, t⟩ : CacheEntry))], p.1 ≠ h₀.1 := by
      intro p hp
      rcases List.mem_append.mp hp with h1 | h1
      · have hnd : ((h₀ :: t₀).map Prod.fst).Nodup := by rw [← hht]; exact hnodup
        rw [List.map_cons, List.nodup_cons] at hnd
        intro hcon
        exact hnd.1 (hcon ▸ List.mem_map_of_mem Prod.fst h1)
      · rw [List.mem_singleton] at h1
        subst h1
        intro hcon
        apply hkey
        have hck : key = h₀.1 := hcon
        rw [hck]
        exact hmem0
    rw [hht]
    simp only [List.cons_append]
    have h1000 : (h₀ :: t₀).length = 1000 := by rw [← hht]; exact hlen1000
    rw [show (h₀ :: t₀).length + 1 - 1000 = 1 from by omega]
    show List.filter (fun p => decide (p.1 ∉ List.map Prod.fst [h₀]))
        (h₀ :: (t₀ ++ [(key, (⟨result, t, 1, t⟩ : CacheEntry))]))
      = t₀ ++ [(key, (⟨result, t, 1, t⟩ : CacheEntry))]
    rw [List.filter_cons]
    rw [show (decide (h₀.1 ∉ ([h₀] : List (String × CacheEntry)).map Prod.fst)) = false by simp]
    rw [if_neg (by simp)]
    exact List.filter_eq_self.mpr (by
      intro p hp
      have := hdistinct p hp
      simp [this])

/-- Iterating `setEntry` over fresh keys with non-decreasing clocks keeps
the last 1000 insertions, in order: each overflow evicts exactly the
oldest surviving entry. -/
theorem insertSeq_entries :
    ∀ (items : List (String × Nat × TranslationResult)) (s : CacheState),
      s.entries.length ≤ 1000 →
      s.entries.Pairwise lruLe →
      (s.entries.map Prod.fst).Nodup →
      (∀ p ∈ s.entries, ∀ it ∈ items, p.2.lastAccessed ≤ it.2.1) →
      (items.map Prod.fst).Nodup →
      (∀ it ∈ items, it.1 ∉ s.entries.map Prod.fst) →
      List.Pairwise (fun a b => a.2.1 ≤ b.2.1) items →
      (insertSeq s items).entries
        = (s.entries ++ items.map entryOfInsert).drop
            (s.entries.length + items.length - 1000) := by
  intro items
  induction items with
  | nil =>
    intro s hlen _ _ _ _ _ _
    simp only [insertSeq, List.map_nil, List.append_nil, List.length_nil]
    rw [show s.entries.length + 0 - 1000 = 0 from by omega, List.drop_zero]
  | cons it rest ih =>
    intro s hlen hsorted hnodup hbound hinodup hkeys htimes
    have hstep := setEntry_entries_sorted s it.1 it.2.2 it.2.1 hlen hsorted hnodup
      (fun p hp => hbound p hp it (List.mem_cons_self it rest))
      (hkeys it (List.mem_cons_self it rest))
    rw [show ((it.1, (⟨it.2.2, it.2.1, 1, it.2.1⟩ : CacheEntry)) : String × CacheEntry)
        = entryOfInsert it from rfl] at hstep
    have hA : (s.entries ++ [entryOfInsert it]).length = s.entries.length + 1 := by
      rw [List.length_append, List.length_singleton]
    have hsub : ((s.entries ++ [entryOfInsert it]).drop
        (s.entries.length + 1 - 1000)).Sublist (s.entries ++ [entryOfInsert it]) :=
      List.drop_sublist _ _
    have hsortedA : (s.entries ++ [entryOfInsert it]).Pairwise lruLe := by
      rw [List.pairwise_append]
      refine ⟨hsorted, List.pairwise_singleton _ _, ?_⟩
      intro a ha b hb
      rw [List.mem_singleton] at hb
      subst hb
      exact hbound a ha it (List.mem_cons_self it rest)
    have hnodupA : ((s.entries ++ [entryOfInsert it]).map Prod.fst).Nodup := by
      rw [List.map_append]
      rw [List.nodup_append]
      refine ⟨hnodup, by simp, ?_⟩
      intro a ha hb
      rw [show ([entryOfInsert it].map Prod.fst) = [it.1] from rfl, List.mem_singleton] at hb
      subst hb
      exact (hkeys it (List.mem_cons_self it rest)) ha
    have htimes_head : ∀ it' ∈ rest, it.2.1 ≤ it'.2.1 :=
      (List.pairwise_cons.mp htimes).1
    have htimes_rest : List.Pairwise (fun a b => a.2.1 ≤ b.2.1) rest :=
      (List.pairwise_cons.mp htimes).2
    have hinodup_rest : (rest.map Prod.fst).Nodup := by
      rw [List.map_cons, List.nodup_cons] at hinodup
      exact hinodup.2
    have hkey_head_rest : it.1 ∉ rest.map Prod.fst := by
      rw [List.map_cons, List.nodup_cons] at hinodup
      exact hinodup.1
    have hlen' : (CacheManager.setEntry s it.1 it.2.2 it.2.1).entries.length
        = s.entries.length + 1 - (s.entries.length + 1 - 1000) := by
      rw [hstep, List.length_drop, hA]
    have ihres := ih (CacheManager.setEntry s it.1 it.2.2 it.2.1)
      (by rw [hlen']; omega)
      (by rw [hstep]; exact hsortedA.sublist hsub)
      (by
        rw [hstep]
        have hm : (((s.entries ++ [entryOfInsert it]).drop
            (s.entries.length + 1 - 1000)).map Prod.fst).Sublist
            ((s.entries ++ [entryOfInsert it]).map Prod.fst) := hsub.map Prod.fst
        exact hnodupA.sublist hm)
      (by
        rw [hstep]
        intro p hp it' hit'
        have hpA : p ∈ s.entries ++ [entryOfInsert it] := hsub.subset hp
        rcases List.mem_append.mp hpA with h1 | h1
        · exact hbound p h1 it' (List.mem_cons_of_mem it hit')
        · rw [List.mem_singleton] at h1
          subst h1
          exact htimes_head it' hit')
      hinodup_rest
      (by
        rw [hstep]
        intro it' hit' hcon
        have hm : ((( s.entries ++ [entryOfInsert it]).drop
            (s.entries.length + 1 - 1000)).map Prod.fst).Sublist
            ((s.entries ++ [entryOfInsert it]).map Prod.fst) := hsub.map Prod.fst
        have hmem : it'.1 ∈ (s.entries ++ [entryOfInsert it]).map Prod.fst :=
          hm.subset hcon
        rw [List.map_append] at hmem
        rcases List.mem_append.mp hmem with h1 | h1
        · exact (hkeys it' (List.mem_cons_of_mem it hit')) h1
        · rw [show ([entryOfInsert it].map Prod.fst) = [it.1] from rfl,
            List.mem_singleton] at h1
          exact hkey_head_rest (h1 ▸ List.mem_map_of_mem Prod.fst hit'))
      htimes_rest
    show (insertSeq (CacheManager.setEntry s it.1 it.2.2 it.2.1) rest).entries = _
    rw [ihres, hlen', hstep]
    rw [← List.drop_append_of_le_length (by rw [hA]; omega)]
    rw [List.drop_drop]
    rw [List.append_assoc, List.singleton_append]
    simp only [List.map_cons, List.length_cons]
    congr 1
    omega

/-- C5: after inserting `1000 + k` distinct keys at strictly increasing
clock readings into an empty cache, `stats()` reports exactly 1000 entries,
and the surviving entries are exactly the last 1000 insertions — the `k`
evicted keys are exactly the first `k` inserted, which (access times being
the strictly increasing insertion times) are exactly the `k` entries with
the smallest `lastAccessed` values. -/
theorem c5_eviction (items : List (String × Nat × TranslationResult)) (k : Nat)
    (hnodup : (items.map Prod.fst).Nodup)
    (htimes : List.Pairwise (fun a b => a.2.1 < b.2.1) items)
    (hlen : items.length = 1000 + k) :
    (CacheManager.getStats (insertSeq CacheState.emptyCache items)).totalEntries = 1000
    ∧ (insertSeq CacheState.emptyCache items).entries
      = (items.map entryOfInsert).drop k := by
  have hmain := insertSeq_entries items CacheState.emptyCache
    (by simp [CacheState.emptyCache])
    (by simp [CacheState.emptyCache])
    (by simp [CacheState.emptyCache])
    (by intro p hp; simp [CacheState.emptyCache] at hp)
    hnodup
    (by intro it _; simp [CacheState.emptyCache])
    (htimes.imp (fun h => Nat.le_of_lt h))
  have hentries : (insertSeq CacheState.emptyCache items).entries
      = (items.map entryOfInsert).drop k := by
    rw [hmain]
    have h1 : (CacheState.emptyCache.entries ++ items.map entryOfInsert)
        = items.map entryOfInsert := by
      simp [CacheState.emptyCache]
    rw [h1]
    congr 1
    simp [CacheState.emptyCache, hlen]
  refine ⟨?_, hentries⟩
  show (insertSeq CacheState.emptyCache items).entries.length = 1000
  rw [hentries, List.length_drop, List.length_map, hlen]
  omega

def c5Items : List (String × Nat × TranslationResult) :=
  (List.range 1001).map (fun i =>
    (String.mk (List.replicate (i + 1) 'a'), i, { translatedText := "t", status := .completed }))

/-- C5, witness: 1001 distinct keys inserted at times 0, …, 1000 leave a
1000-entry cache holding everything but the first insertion. -/
theorem c5_witness :
    (CacheManager.getStats (insertSeq CacheState.emptyCache c5Items)).totalEntries = 1000
    ∧ (insertSeq CacheState.emptyCache c5Items).entries
      = (c5Items.map entryOfInsert).drop 1 :=
  c5_eviction c5Items 1
    (by
      have hinj : Function.Injective (fun i : Nat => String.mk (List.replicate (i + 1) 'a')) := by
        intro i j h
        have h2 : List.replicate (i + 1) 'a' = List.replicate (j + 1) 'a' :=
          congrArg String.data h
        have h3 := congrArg List.length h2
        simpa using h3
      have hmap : c5Items.map Prod.fst
          = (List.range 1001).map (fun i => String.mk (List.replicate (i + 1) 'a')) := by
        simp [c5Items, List.map_map]
      rw [hmap]
      exact (List.nodup_range 1001).map hinj)
    (by
      have : List.Pairwise (fun a b : String × Nat × TranslationResult => a.2.1 < b.2.1)
          c5Items ↔ List.Pairwise (fun i j : Nat => i < j) (List.range 1001) := by
        simp [c5Items, List.pairwise_map]
      exact this.mpr (List.pairwise_lt_range 1001))
    (by simp [c5Items])

end ChromaTranslator
